import Mathlib

/-!
Verification of `xheap.py`: an indexed binary heap (min or max, selected by
`is_min`) whose entries track their own positions, supporting arbitrary
removal and key-change repair.

Shallow embedding conventions:
* Heap entries are identified by natural-number ids; an external map
  `val : Nat → Int` gives each entry its ordering value (`HVal.val` /
  `MultiHVal.val`).  Mutating an entry's value between operations is
  modelled by switching to a second `val` map.
* A heap state `St` holds the backing list `heap` (entry ids, array order)
  and the position store `ps : Nat → Nat → Option Nat` mapping an entry id
  and a heap identity to the entry's recorded position.  `none` stands for
  the source's "absent" encoding (a deleted key in `MultiHVal.pos`, or the
  sentinel `-1` for `HVal.pos`).
* Python operations that can raise (`pop`/`replace` on an empty heap,
  `getpos` on an absent key, a failing `assert`) are embedded as
  `Option`-returning functions, `none` marking the exception.
* The source's `_siftdown` selects `newitem.__lt__` or `newitem.__gt__`
  via `is_min`, and `_siftup_min` / `_siftup_max` are verbatim copies of
  each other with `<` swapped for `>`; both are embedded by one function
  over the direction-parametric strict test `elt`.
-/

namespace XHeap

/-- The comparison the heap code applies to two entries `a`, `b`:
`a < b` (i.e. `val a < val b`) when `is_min` (`m = true`), and
`a > b` (i.e. `val b < val a`) when not (`m = false`).  This is exactly
`HVal.__lt__` / `HVal.__gt__` dispatched the way `Heap._siftdown`,
`Heap._siftup_min` / `Heap._siftup_max`, `Heap.remove` and `Heap.pushpop`
pick the operator. -/
def elt (m : Bool) (val : Nat → Int) (a b : Nat) : Bool :=
  if m then decide (val a < val b) else decide (val b < val a)

/-- Direction-relative `≤` on ordering values: `x ≤ y` for a min-heap,
`y ≤ x` for a max-heap ("x precedes-or-ties y"). -/
def vle (m : Bool) (x y : Int) : Prop :=
  if m then x ≤ y else y ≤ x

theorem nelt_iff_vle (m : Bool) (val : Nat → Int) (a b : Nat) :
    (¬ elt m val a b = true) ↔ vle m (val b) (val a) := by
  cases m <;> simp [elt, vle]

theorem vle_refl (m : Bool) (x : Int) : vle m x x := by
  cases m <;> simp [vle]

theorem vle_trans {m : Bool} {x y z : Int} (h1 : vle m x y) (h2 : vle m y z) :
    vle m x z := by
  cases m <;> simp [vle] at * <;> omega

theorem elt_irrefl (m : Bool) (val : Nat → Int) (a : Nat) :
    ¬ elt m val a a = true := by
  cases m <;> simp [elt]

theorem elt_asymm {m : Bool} {val : Nat → Int} {a b : Nat}
    (h : elt m val a b = true) : ¬ elt m val b a = true := by
  cases m <;> simp [elt] at * <;> omega

theorem nelt_trans {m : Bool} {val : Nat → Int} {a b c : Nat}
    (h1 : ¬ elt m val b a = true) (h2 : ¬ elt m val c b = true) :
    ¬ elt m val c a = true := by
  cases m <;> simp [elt] at * <;> omega

theorem nelt_of_elt_nelt {m : Bool} {val : Nat → Int} {a b c : Nat}
    (h1 : elt m val a b = true) (h2 : ¬ elt m val c b = true) :
    ¬ elt m val c a = true := by
  cases m <;> simp [elt] at * <;> omega

theorem nelt_of_nelt_elt {m : Bool} {val : Nat → Int} {a b c : Nat}
    (h1 : ¬ elt m val b a = true) (h2 : elt m val b c = true) :
    ¬ elt m val c a = true := by
  cases m <;> simp [elt] at * <;> omega

/-- Parent index in the breadth-first array layout (`(pos - 1) >> 1`). -/
def parent (c : Nat) : Nat := (c - 1) / 2

theorem parent_lt {c : Nat} (h : 0 < c) : parent c < c := by
  unfold parent
  omega

theorem parent_left (i : Nat) : parent (2 * i + 1) = i := by
  unfold parent
  omega

theorem parent_right (i : Nat) : parent (2 * i + 2) = i := by
  unfold parent
  omega

theorem parent_cases {c : Nat} (h : 0 < c) :
    c = 2 * parent c + 1 ∨ c = 2 * parent c + 2 := by
  unfold parent
  omega

theorem lt_child_left (i : Nat) : i < 2 * i + 1 := by omega

theorem lt_child_right (i : Nat) : i < 2 * i + 2 := by omega

/-- `desc p i` holds when index `i` lies in the subtree rooted at `p`
(i.e. iterating `parent` from `i` reaches `p`). -/
def desc (p i : Nat) : Bool :=
  if i = p then true
  else if i ≤ p then false
  else desc p (parent i)
termination_by i
decreasing_by
  unfold parent
  omega

theorem desc_unfold (p i : Nat) :
    desc p i = if i = p then true else if i ≤ p then false
               else desc p (parent i) := by
  rw [desc]

theorem desc_self (p : Nat) : desc p p = true := by
  rw [desc_unfold]
  simp

theorem desc_le {p i : Nat} (h : desc p i = true) : p ≤ i := by
  rw [desc_unfold] at h
  split at h
  · omega
  · split at h
    · exact absurd h (by simp)
    · omega

theorem desc_parent {p i : Nat} (h : desc p i = true) (hne : i ≠ p) :
    desc p (parent i) = true := by
  rw [desc_unfold] at h
  split at h
  · exact absurd ‹i = p› hne
  · split at h
    · exact absurd h (by simp)
    · exact h

theorem desc_of_parent {p i : Nat} (h : desc p (parent i) = true)
    (hgt : p < i) : desc p i = true := by
  rw [desc_unfold]
  split
  · rfl
  · split
    · omega
    · exact h

theorem desc_child_left {p i : Nat} (h : desc p i = true) :
    desc p (2 * i + 1) = true := by
  apply desc_of_parent
  · rw [parent_left]
    exact h
  · have := desc_le h
    omega

theorem desc_child_right {p i : Nat} (h : desc p i = true) :
    desc p (2 * i + 2) = true := by
  apply desc_of_parent
  · rw [parent_right]
    exact h
  · have := desc_le h
    omega

theorem desc_zero (i : Nat) : desc 0 i = true := by
  induction i using Nat.strong_induction_on with
  | _ i ih =>
    rcases Nat.eq_zero_or_pos i with h | h
    · subst h
      exact desc_self 0
    · exact desc_of_parent (ih (parent i) (parent_lt h)) h

theorem not_desc_of_lt {p i : Nat} (h : i < p) : ¬ desc p i = true := by
  intro hd
  have := desc_le hd
  omega

theorem desc_parent_ge {p i : Nat} (h : desc p i = true) (hne : i ≠ p) :
    p ≤ parent i :=
  desc_le (desc_parent h hne)

/-! ### List access toolkit

Python list reads `heap[i]` are embedded as `List.getD i 0` (all verified
accesses are in range), writes `heap[i] = x` as `List.set i x`,
`heap.append` as `++ [x]`, and `heap.pop()` (remove last) as
`dropLast` / `getD (length - 1)`. -/

theorem getD_cons_succ_nat (x : Nat) (t : List Nat) (j : Nat) :
    (x :: t).getD (j + 1) 0 = t.getD j 0 := by
  simp [List.getD]

theorem getD_set_self {l : List Nat} {i : Nat} (a : Nat) (h : i < l.length) :
    (l.set i a).getD i 0 = a := by
  induction l generalizing i with
  | nil => simp at h
  | cons x t ih =>
    cases i with
    | zero => simp
    | succ j =>
      simp only [List.set, getD_cons_succ_nat]
      exact ih (by simpa using h)

theorem getD_set_ne {i j : Nat} (l : List Nat) (a : Nat) (hne : i ≠ j) :
    (l.set i a).getD j 0 = l.getD j 0 := by
  induction l generalizing i j with
  | nil => simp
  | cons x t ih =>
    cases i with
    | zero =>
      cases j with
      | zero => exact absurd rfl hne
      | succ j' => simp [List.set, getD_cons_succ_nat]
    | succ i' =>
      cases j with
      | zero => simp [List.set]
      | succ j' =>
        simp only [List.set, getD_cons_succ_nat]
        exact ih (by omega)

theorem set_getD_self {l : List Nat} {i : Nat} (h : i < l.length) :
    l.set i (l.getD i 0) = l := by
  induction l generalizing i with
  | nil => simp at h
  | cons x t ih =>
    cases i with
    | zero => simp
    | succ j =>
      simp only [List.set, getD_cons_succ_nat, List.cons.injEq, true_and]
      exact ih (by simpa using h)

theorem getD_append_left {l l2 : List Nat} {j : Nat} (h : j < l.length) :
    (l ++ l2).getD j 0 = l.getD j 0 := by
  induction l generalizing j with
  | nil => simp at h
  | cons x t ih =>
    cases j with
    | zero => simp
    | succ j' =>
      simp only [List.cons_append, getD_cons_succ_nat]
      exact ih (by simpa using h)

theorem getD_append_right_self (l : List Nat) (a : Nat) :
    (l ++ [a]).getD l.length 0 = a := by
  induction l with
  | nil => simp
  | cons x t ih =>
    simp [List.cons_append, getD_cons_succ_nat, ih]

theorem dropLast_append_self {l : List Nat} (h : l ≠ []) :
    l.dropLast ++ [l.getD (l.length - 1) 0] = l := by
  induction l with
  | nil => exact absurd rfl h
  | cons x t ih =>
    cases t with
    | nil => simp
    | cons y u =>
      have hne : (y :: u) ≠ ([] : List Nat) := by simp
      simp only [List.dropLast_cons₂, List.cons_append, List.cons.injEq, true_and]
      simpa [getD_cons_succ_nat] using ih hne

theorem getD_dropLast {l : List Nat} {j : Nat} (h : j < l.length - 1) :
    l.dropLast.getD j 0 = l.getD j 0 := by
  rcases List.eq_nil_or_concat l with rfl | ⟨t, a, rfl⟩
  · simp at h
  · rw [List.concat_eq_append, List.dropLast_concat]
    rw [List.concat_eq_append, List.length_append] at h
    simp only [List.length_cons, List.length_nil] at h
    exact (getD_append_left (by omega)).symm

theorem getD_mem {l : List Nat} {i : Nat} (h : i < l.length) :
    l.getD i 0 ∈ l := by
  rw [List.getD_eq_getElem?_getD, List.getElem?_eq_getElem h]
  exact List.getElem_mem h

theorem mem_of_mem_set {l : List Nat} {i a x : Nat} (h : x ∈ l.set i a) :
    x ∈ l ∨ x = a := by
  induction l generalizing i with
  | nil => simp at h
  | cons y t ih =>
    cases i with
    | zero =>
      rcases List.mem_cons.mp h with rfl | h'
      · right; rfl
      · left; exact List.mem_cons_of_mem _ h'
    | succ j =>
      rcases List.mem_cons.mp h with rfl | h'
      · left; exact List.mem_cons_self _ _
      · rcases ih h' with h'' | h''
        · left; exact List.mem_cons_of_mem _ h''
        · right; exact h''

theorem count_set {l : List Nat} {i : Nat} (a x : Nat) (h : i < l.length) :
    (l.set i a).count x + (if l.getD i 0 = x then 1 else 0)
      = l.count x + (if a = x then 1 else 0) := by
  induction l generalizing i with
  | nil => simp at h
  | cons y t ih =>
    cases i with
    | zero =>
      simp only [List.set, List.getD_cons_zero, List.count_cons]
      by_cases h1 : a = x <;> by_cases h2 : y = x <;> simp [h1, h2]
    | succ j =>
      simp only [List.set, getD_cons_succ_nat, List.count_cons]
      have := ih (i := j) (by simpa using h)
      omega

theorem count_cons_nat (a x : Nat) (t : List Nat) :
    (a :: t).count x = t.count x + (if a = x then 1 else 0) := by
  rw [List.count_cons]
  by_cases h : a = x
  · simp [h]
  · rw [if_neg h, if_neg (by simpa using h)]

theorem nodup_getD_ne {l : List Nat} (hn : l.Nodup) {i j : Nat}
    (hi : i < l.length) (hj : j < l.length) (hne : i ≠ j) :
    l.getD i 0 ≠ l.getD j 0 := by
  intro he
  have hg : l.get ⟨i, hi⟩ = l.get ⟨j, hj⟩ := by
    rw [List.getD_eq_getElem?_getD, List.getElem?_eq_getElem hi,
        List.getD_eq_getElem?_getD, List.getElem?_eq_getElem hj] at he
    simpa using he
  have hf := List.nodup_iff_injective_get.mp hn hg
  exact hne (by simpa using hf)

theorem set_set_perm {l : List Nat} {q cp : Nat} (x : Nat)
    (hq : q < l.length) (hcp : cp < l.length) (hne : q ≠ cp) :
    ((l.set q (l.getD cp 0)).set cp x).Perm (l.set q x) := by
  rw [List.perm_iff_count]
  intro a
  have h1 := count_set (l := l.set q (l.getD cp 0)) (i := cp) x a
    (by simpa using hcp)
  have h2 := count_set (l := l) (i := q) (l.getD cp 0) a hq
  have h3 := count_set (l := l) (i := q) x a hq
  rw [getD_set_ne _ _ (by omega)] at h1
  omega

/-! ### Heap-order predicates

`debug_assert` / `_assert_at` check two things: for every index `c` the
entry's recorded position equals `c`, and for every non-root `c` the entry
at `c` does not strictly precede its parent (`_assert_min` raises when
`heap[c] < heap[parent]`, `_assert_max` when `heap[c] > heap[parent]`). -/

/-- The parent-child relation at child index `c` holds: the entry at `c`
does not strictly precede (min) / follow (max) the entry at `parent c`. -/
def hOrdAt (m : Bool) (val : Nat → Int) (l : List Nat) (c : Nat) : Prop :=
  ¬ elt m val (l.getD c 0) (l.getD (parent c) 0) = true

/-- All parent-child edges whose parent index is at least `k` are ordered
(the region Floyd's bottom-up construction grows toward the root). -/
def heapFrom (m : Bool) (val : Nat → Int) (l : List Nat) (k : Nat) : Prop :=
  ∀ c, c < l.length → 0 < c → k ≤ parent c → hOrdAt m val l c

/-- The heap-ordering invariant checked by `debug_assert`. -/
def heapOrd (m : Bool) (val : Nat → Int) (l : List Nat) : Prop :=
  ∀ c, c < l.length → 0 < c → hOrdAt m val l c

instance (m : Bool) (val : Nat → Int) (l : List Nat) (c : Nat) :
    Decidable (hOrdAt m val l c) :=
  inferInstanceAs (Decidable (¬ _ = true))

instance (m : Bool) (val : Nat → Int) (l : List Nat) :
    Decidable (heapOrd m val l) :=
  inferInstanceAs (Decidable (∀ c, c < l.length → 0 < c → hOrdAt m val l c))

theorem heapOrd_iff_heapFrom (m : Bool) (val : Nat → Int) (l : List Nat) :
    heapOrd m val l ↔ heapFrom m val l 0 := by
  constructor
  · intro h c hc hc0 _
    exact h c hc hc0
  · intro h c hc hc0
    exact h c hc hc0 (Nat.zero_le _)

/-! ### The sift primitives, list level

`_siftdown(startpos, pos, newitem)` moves `newitem` toward the root from
`pos`, shifting parents down, stopping at `startpos`; the state it mutates
is reproduced here on the bare backing list (the position bookkeeping is
added in the stateful layer below, which projects onto these). -/

/-- The loop of `Heap._siftdown` with an explicit iteration bound; the
hole index strictly decreases, so a bound of `pos` makes the bound
inoperative (see `siftdownL_eq`). -/
def siftdownLGo (m : Bool) (val : Nat → Int) (sp : Nat) :
    Nat → Nat → Nat → List Nat → List Nat
  | 0, pos, newitem, l => l.set pos newitem
  | fuel + 1, pos, newitem, l =>
    if sp < pos then
      if elt m val newitem (l.getD (parent pos) 0) then
        siftdownLGo m val sp fuel (parent pos) newitem
          (l.set pos (l.getD (parent pos) 0))
      else l.set pos newitem
    else l.set pos newitem

/-- List-level `Heap._siftdown(sp, pos, newitem)`.  `compar` is
`newitem.__lt__` for a min-heap and `newitem.__gt__` for a max-heap,
i.e. `elt m val newitem ·`. -/
def siftdownL (m : Bool) (val : Nat → Int) (sp pos newitem : Nat)
    (l : List Nat) : List Nat :=
  siftdownLGo m val sp pos pos newitem l

theorem siftdownLGo_fuel (m : Bool) (val : Nat → Int) (sp : Nat) :
    ∀ f1 f2 pos newitem l, pos ≤ f1 → pos ≤ f2 →
      siftdownLGo m val sp f1 pos newitem l
        = siftdownLGo m val sp f2 pos newitem l := by
  intro f1
  induction f1 with
  | zero =>
    intro f2 pos newitem l h1 h2
    have hp : pos = 0 := by omega
    subst hp
    cases f2 with
    | zero => rfl
    | succ f2 => simp [siftdownLGo]
  | succ f1 ih =>
    intro f2 pos newitem l h1 h2
    cases f2 with
    | zero =>
      have hp : pos = 0 := by omega
      subst hp
      simp [siftdownLGo]
    | succ f2 =>
      show (if sp < pos then _ else _) = (if sp < pos then _ else _)
      by_cases hsp : sp < pos
      · simp only [if_pos hsp]
        by_cases hm : elt m val newitem (l.getD (parent pos) 0) = true
        · simp only [if_pos hm]
          have hpl : parent pos < pos := parent_lt (by omega)
          exact ih f2 (parent pos) newitem _ (by omega) (by omega)
        · simp only [if_neg hm]
      · simp only [if_neg hsp]

theorem siftdownL_eq (m : Bool) (val : Nat → Int) (sp pos newitem : Nat)
    (l : List Nat) :
    siftdownL m val sp pos newitem l =
      if sp < pos then
        (if elt m val newitem (l.getD (parent pos) 0) then
          siftdownL m val sp (parent pos) newitem (l.set pos (l.getD (parent pos) 0))
        else l.set pos newitem)
      else l.set pos newitem := by
  unfold siftdownL
  cases pos with
  | zero =>
    have hsp : ¬ sp < 0 := by omega
    simp only [if_neg hsp]
    rfl
  | succ k =>
    show (if sp < k + 1 then _ else _) = _
    by_cases hsp : sp < k + 1
    · simp only [if_pos hsp]
      by_cases hm : elt m val newitem (l.getD (parent (k + 1)) 0) = true
      · simp only [if_pos hm]
        have hpl : parent (k + 1) < k + 1 := parent_lt (by omega)
        exact siftdownLGo_fuel m val sp k (parent (k + 1)) (parent (k + 1))
          newitem _ (by omega) (by omega)
      · simp only [if_neg hm]
    · simp only [if_neg hsp]

/-- List-level body of `Heap._siftup_min` / `Heap._siftup_max`'s while
loop: bubble the smaller (min) / larger (max) child up into the hole at
`pos` until the hole reaches a leaf; returns the hole's final index and
the updated list.  The child test `heap[rightpos] < heap[childpos]`
(resp. `>`) is `elt m val` in both variants. -/
def siftupLoopLGo (m : Bool) (val : Nat → Int) :
    Nat → Nat → List Nat → Nat × List Nat
  | 0, pos, l => (pos, l)
  | fuel + 1, pos, l =>
    if 2 * pos + 1 < l.length then
      if 2 * pos + 2 < l.length ∧
          elt m val (l.getD (2 * pos + 2) 0) (l.getD (2 * pos + 1) 0) = true then
        siftupLoopLGo m val fuel (2 * pos + 2) (l.set pos (l.getD (2 * pos + 2) 0))
      else
        siftupLoopLGo m val fuel (2 * pos + 1) (l.set pos (l.getD (2 * pos + 1) 0))
    else (pos, l)

def siftupLoopL (m : Bool) (val : Nat → Int) (pos : Nat) (l : List Nat) :
    Nat × List Nat :=
  siftupLoopLGo m val (l.length - pos) pos l

theorem siftupLoopLGo_fuel (m : Bool) (val : Nat → Int) :
    ∀ f1 f2 pos l, l.length - pos ≤ f1 → l.length - pos ≤ f2 →
      siftupLoopLGo m val f1 pos l = siftupLoopLGo m val f2 pos l := by
  intro f1
  induction f1 with
  | zero =>
    intro f2 pos l h1 h2
    have hng : ¬ 2 * pos + 1 < l.length := by omega
    cases f2 with
    | zero => rfl
    | succ f2 => simp [siftupLoopLGo, hng]
  | succ f1 ih =>
    intro f2 pos l h1 h2
    cases f2 with
    | zero =>
      have hng : ¬ 2 * pos + 1 < l.length := by omega
      simp [siftupLoopLGo, hng]
    | succ f2 =>
      simp only [siftupLoopLGo]
      by_cases hg1 : 2 * pos + 1 < l.length
      · simp only [if_pos hg1]
        by_cases hg2 : 2 * pos + 2 < l.length ∧
            elt m val (l.getD (2 * pos + 2) 0) (l.getD (2 * pos + 1) 0) = true
        · simp only [if_pos hg2]
          exact ih f2 _ _ (by simp only [List.length_set]; omega)
            (by simp only [List.length_set]; omega)
        · simp only [if_neg hg2]
          exact ih f2 _ _ (by simp only [List.length_set]; omega)
            (by simp only [List.length_set]; omega)
      · simp only [if_neg hg1]

theorem siftupLoopL_eq (m : Bool) (val : Nat → Int) (pos : Nat) (l : List Nat) :
    siftupLoopL m val pos l =
      if 2 * pos + 1 < l.length then
        (if 2 * pos + 2 < l.length ∧
            elt m val (l.getD (2 * pos + 2) 0) (l.getD (2 * pos + 1) 0) = true then
          siftupLoopL m val (2 * pos + 2) (l.set pos (l.getD (2 * pos + 2) 0))
        else
          siftupLoopL m val (2 * pos + 1) (l.set pos (l.getD (2 * pos + 1) 0)))
      else (pos, l) := by
  unfold siftupLoopL
  cases hf : l.length - pos with
  | zero =>
    have hng : ¬ 2 * pos + 1 < l.length := by omega
    simp [siftupLoopLGo, hng]
  | succ f =>
    simp only [siftupLoopLGo]
    by_cases hg1 : 2 * pos + 1 < l.length
    · simp only [if_pos hg1]
      by_cases hg2 : 2 * pos + 2 < l.length ∧
          elt m val (l.getD (2 * pos + 2) 0) (l.getD (2 * pos + 1) 0) = true
      · simp only [if_pos hg2]
        exact siftupLoopLGo_fuel m val f _ _ _
          (by simp only [List.length_set]; omega)
          (by simp only [List.length_set]; omega)
      · simp only [if_neg hg2]
        exact siftupLoopLGo_fuel m val f _ _ _
          (by simp only [List.length_set]; omega)
          (by simp only [List.length_set]; omega)
    · simp only [if_neg hg1]

/-- List-level `Heap._siftup_min(pos)` (`m = true`) /
`Heap._siftup_max(pos)` (`m = false`), also `Heap._siftup_inplace`:
record `newitem = heap[pos]`, bubble the winning child up to a leaf, then
`_siftdown(pos, leaf, newitem)`. -/
def siftupInplaceL (m : Bool) (val : Nat → Int) (pos : Nat) (l : List Nat) :
    List Nat :=
  let r := siftupLoopL m val pos l
  siftdownL m val pos r.1 (l.getD pos 0) r.2

/-- List-level `Heap._siftup(pos, item)`: store `item` at `pos`, then run
the in-place sift. -/
def siftupL (m : Bool) (val : Nat → Int) (pos item : Nat) (l : List Nat) :
    List Nat :=
  siftupInplaceL m val pos (l.set pos item)

theorem siftdownL_length (m : Bool) (val : Nat → Int) (sp : Nat) :
    ∀ pos newitem l, (siftdownL m val sp pos newitem l).length = l.length := by
  intro pos
  induction pos using Nat.strong_induction_on with
  | _ pos ih =>
    intro newitem l
    rw [siftdownL_eq]
    split
    · split
      · rw [ih (parent pos) (parent_lt (by omega)), List.length_set]
      · exact List.length_set l pos newitem
    · exact List.length_set l pos newitem

theorem siftupLoopL_length (m : Bool) (val : Nat → Int) :
    ∀ fuel pos l, l.length - pos ≤ fuel →
      (siftupLoopL m val pos l).2.length = l.length := by
  intro fuel
  induction fuel with
  | zero =>
    intro pos l h
    rw [siftupLoopL_eq]
    split
    · omega
    · rfl
  | succ fuel ih =>
    intro pos l h
    rw [siftupLoopL_eq]
    split
    · split
      · rw [ih _ _ (by simp only [List.length_set]; omega), List.length_set]
      · rw [ih _ _ (by simp only [List.length_set]; omega), List.length_set]
    · rfl

theorem siftupLoopL_len (m : Bool) (val : Nat → Int) (pos : Nat) (l : List Nat) :
    (siftupLoopL m val pos l).2.length = l.length :=
  siftupLoopL_length m val (l.length - pos) pos l (Nat.le_refl _)

theorem siftupInplaceL_length (m : Bool) (val : Nat → Int) (pos : Nat)
    (l : List Nat) : (siftupInplaceL m val pos l).length = l.length := by
  unfold siftupInplaceL
  rw [siftdownL_length, siftupLoopL_len]

theorem siftupL_length (m : Bool) (val : Nat → Int) (pos item : Nat)
    (l : List Nat) : (siftupL m val pos item l).length = l.length := by
  unfold siftupL
  rw [siftupInplaceL_length, List.length_set]

theorem child_of_parent {c pos : Nat} (h : parent c = pos) (hc : 0 < c) :
    c = 2 * pos + 1 ∨ c = 2 * pos + 2 := by
  have := parent_cases hc
  omega

/-- Correctness of the rise motion: starting from a hole at `pos` inside the
subtree of `sp`, if every parent-child edge with parent index at least `sp`
is ordered when `newitem` is imagined at the hole — except the hole's own
edge to its parent — and the hole's children already fit under the hole's
parent, then after `_siftdown(sp, pos, newitem)` every edge with parent
index at least `sp` is ordered. -/
theorem siftdownL_heapFrom (m : Bool) (val : Nat → Int) (sp newitem : Nat) :
    ∀ pos l, pos < l.length → desc sp pos = true →
      (∀ c, c < l.length → 0 < c → sp ≤ parent c → c ≠ pos →
        hOrdAt m val (l.set pos newitem) c) →
      (pos ≠ sp → ∀ c, (c = 2 * pos + 1 ∨ c = 2 * pos + 2) → c < l.length →
        ¬ elt m val (l.getD c 0) (l.getD (parent pos) 0) = true) →
      heapFrom m val (siftdownL m val sp pos newitem l) sp := by
  intro pos
  induction pos using Nat.strong_induction_on with
  | _ pos ih =>
    intro l hpos hdesc hexc hkids
    rw [siftdownL_eq]
    by_cases hsp : sp < pos
    · simp only [if_pos hsp]
      have hp0 : 0 < pos := by omega
      have hppos : parent pos < pos := parent_lt hp0
      have hpplen : parent pos < l.length := by omega
      set pp := parent pos with hpp
      set par := l.getD pp 0 with hpar
      by_cases hm : elt m val newitem par = true
      · simp only [if_pos hm]
        set l1 := l.set pos par with hl1
        have hlen1 : l1.length = l.length := List.length_set l pos par
        have hdesc1 : desc sp pp = true := desc_parent hdesc (by omega)
        -- contents of l1.set pp newitem
        have hLpos : (l1.set pp newitem).getD pos 0 = par := by
          rw [getD_set_ne _ _ (by omega), hl1, getD_set_self par hpos]
        have hLpp : (l1.set pp newitem).getD pp 0 = newitem :=
          getD_set_self newitem (by omega)
        have hLother : ∀ j, j ≠ pos → j ≠ pp →
            (l1.set pp newitem).getD j 0 = l.getD j 0 := by
          intro j h1 h2
          rw [getD_set_ne _ _ (by omega), hl1, getD_set_ne _ _ (by omega)]
        apply ih pp hppos l1 (by omega) hdesc1
        · -- the "all edges except the hole's" hypothesis, hole now at pp
          intro c hc hc0 hcp hcne
          rw [hlen1] at hc
          unfold hOrdAt
          by_cases hcpos : c = pos
          · subst hcpos
            rw [hLpos, show parent c = pp from rfl, hLpp]
            exact elt_asymm hm
          · by_cases hpc : parent c = pos
            · have hcgt : c = 2 * pos + 1 ∨ c = 2 * pos + 2 :=
                child_of_parent hpc hc0
              rw [hLother c hcpos (by omega), hpc, hLpos]
              exact hkids (by omega) c hcgt hc
            · by_cases hpcp : parent c = pp
              · rw [hLother c hcpos hcne, hpcp, hLpp]
                have hx := hexc c hc hc0 hcp hcpos
                unfold hOrdAt at hx
                rw [getD_set_ne _ _ (by omega), hpcp,
                    getD_set_ne _ _ (by omega)] at hx
                exact nelt_of_elt_nelt hm hx
              · rw [hLother c hcpos hcne, hLother (parent c) hpc hpcp]
                have hx := hexc c hc hc0 hcp hcpos
                unfold hOrdAt at hx
                rw [getD_set_ne _ _ (by omega),
                    getD_set_ne _ _ (by omega)] at hx
                exact hx
        · -- the children-under-grandparent hypothesis, hole now at pp
          intro hppsp c hcchild hclen
          rw [hlen1] at hclen
          have h0pp : 0 < pp := by
            have hsppp : sp ≤ pp := desc_le hdesc1
            rcases Nat.eq_zero_or_pos pp with h | h
            · exact absurd (by omega : pp = sp) hppsp
            · exact h
          have hgsp : sp ≤ parent pp := desc_parent_ge hdesc1 hppsp
          have hglt : parent pp < pp := parent_lt h0pp
          have hgpos : parent pp ≠ pos := by omega
          have hl1g : l1.getD (parent pp) 0 = l.getD (parent pp) 0 := by
            rw [hl1, getD_set_ne _ _ (by omega)]
          -- the hole's edge to its own parent, with `par` at the hole
          have hparg : ¬ elt m val par (l.getD (parent pp) 0) = true := by
            have hx := hexc pp (by omega) h0pp hgsp (by omega)
            unfold hOrdAt at hx
            rw [getD_set_ne _ _ (by omega), getD_set_ne _ _ (by omega)] at hx
            exact hx
          by_cases hcpos : c = pos
          · subst hcpos
            rw [hl1g, hl1, getD_set_self par hpos]
            exact hparg
          · have hcl1 : l1.getD c 0 = l.getD c 0 := by
              rw [hl1, getD_set_ne _ _ (by omega)]
            rw [hl1g, hcl1]
            have hpc : parent c = pp := by
              rcases hcchild with h | h
              · rw [h, parent_left]
              · rw [h, parent_right]
            have hx := hexc c hclen (by omega) (by omega) hcpos
            unfold hOrdAt at hx
            rw [getD_set_ne _ _ (by omega), hpc,
                getD_set_ne _ _ (by omega)] at hx
            exact nelt_trans hparg hx
      · -- the parent no longer yields: place `newitem` at the hole
        simp only [if_neg hm]
        intro c hc hc0 hcp
        rw [List.length_set] at hc
        unfold hOrdAt
        by_cases hcpos : c = pos
        · subst hcpos
          rw [getD_set_self newitem hpos, show parent c = pp from rfl,
              getD_set_ne _ _ (by omega)]
          exact hm
        · exact hexc c hc hc0 hcp hcpos
    · -- the hole reached `sp` (the loop guard `pos > startpos` fails)
      simp only [if_neg hsp]
      have hps : pos = sp := by
        have := desc_le hdesc
        omega
      intro c hc hc0 hcp
      rw [List.length_set] at hc
      by_cases hcpos : c = pos
      · subst hcpos
        have := parent_lt hc0
        omega
      · exact hexc c hc hc0 hcp hcpos

/-- `_siftdown` writes only along the parent chain inside the subtree of
`sp`: indices outside that subtree keep their contents. -/
theorem siftdownL_frame (m : Bool) (val : Nat → Int) (sp newitem : Nat) :
    ∀ pos l j, desc sp pos = true → ¬ desc sp j = true →
      (siftdownL m val sp pos newitem l).getD j 0 = l.getD j 0 := by
  intro pos
  induction pos using Nat.strong_induction_on with
  | _ pos ih =>
    intro l j hdesc hj
    have hjpos : j ≠ pos := fun he => hj (he ▸ hdesc)
    rw [siftdownL_eq]
    by_cases hsp : sp < pos
    · simp only [if_pos hsp]
      by_cases hm : elt m val newitem (l.getD (parent pos) 0) = true
      · simp only [if_pos hm]
        rw [ih (parent pos) (parent_lt (by omega)) _ j
            (desc_parent hdesc (by omega)) hj]
        rw [getD_set_ne _ _ (by omega)]
      · simp only [if_neg hm]
        rw [getD_set_ne _ _ (by omega)]
    · simp only [if_neg hsp]
      rw [getD_set_ne _ _ (by omega)]

/-- After `_siftdown(sp, pos, newitem)` the content at `sp` is either
`newitem` (it rose all the way) or unchanged. -/
theorem siftdownL_getD_sp (m : Bool) (val : Nat → Int) (sp newitem : Nat) :
    ∀ pos l, pos < l.length → desc sp pos = true →
      (siftdownL m val sp pos newitem l).getD sp 0 = newitem ∨
      (pos ≠ sp ∧ (siftdownL m val sp pos newitem l).getD sp 0 = l.getD sp 0) := by
  intro pos
  induction pos using Nat.strong_induction_on with
  | _ pos ih =>
    intro l hpos hdesc
    rw [siftdownL_eq]
    by_cases hsp : sp < pos
    · simp only [if_pos hsp]
      have hpl : parent pos < pos := parent_lt (by omega)
      by_cases hm : elt m val newitem (l.getD (parent pos) 0) = true
      · simp only [if_pos hm]
        rcases ih (parent pos) hpl (l.set pos (l.getD (parent pos) 0))
            (by rw [List.length_set]; omega)
            (desc_parent hdesc (by omega)) with h | ⟨hne, h⟩
        · exact Or.inl h
        · right
          refine ⟨by omega, ?_⟩
          rw [h, getD_set_ne _ _ (by omega)]
      · simp only [if_neg hm]
        right
        exact ⟨by omega, getD_set_ne _ _ (by omega)⟩
    · simp only [if_neg hsp]
      have hps : pos = sp := by
        have := desc_le hdesc
        omega
      subst hps
      exact Or.inl (getD_set_self newitem hpos)

/-- `_siftdown(sp, pos, newitem, l)` is a permutation of `l` with `newitem`
written at the hole `pos`. -/
theorem siftdownL_perm (m : Bool) (val : Nat → Int) (sp newitem : Nat) :
    ∀ pos l, pos < l.length →
      (siftdownL m val sp pos newitem l).Perm (l.set pos newitem) := by
  intro pos
  induction pos using Nat.strong_induction_on with
  | _ pos ih =>
    intro l hpos
    rw [siftdownL_eq]
    by_cases hsp : sp < pos
    · simp only [if_pos hsp]
      have hpl : parent pos < pos := parent_lt (by omega)
      by_cases hm : elt m val newitem (l.getD (parent pos) 0) = true
      · simp only [if_pos hm]
        have h1 := ih (parent pos) hpl
          (l.set pos (l.getD (parent pos) 0)) (by rw [List.length_set]; omega)
        exact h1.trans (set_set_perm newitem hpos
          (by omega : parent pos < l.length) (by omega))
      · simp only [if_neg hm]
        exact List.Perm.refl _
    · simp only [if_neg hsp]
      exact List.Perm.refl _

theorem desc_trans {a b : Nat} : ∀ {c}, desc a b = true → desc b c = true →
    desc a c = true := by
  intro c
  induction c using Nat.strong_induction_on with
  | _ c ih =>
    intro hab hbc
    by_cases hcb : c = b
    · exact hcb ▸ hab
    · have h1 := desc_parent hbc hcb
      have h2 := desc_le hbc
      have h3 := desc_le hab
      have h0c : 0 < c := by
        rcases Nat.eq_zero_or_pos c with h | h
        · subst h
          omega
        · exact h
      exact desc_of_parent (ih (parent c) (parent_lt h0c) hab h1) (by omega)

/-- The bubbling loop writes only inside the subtree of its starting
hole. -/
theorem siftupLoopL_frame (m : Bool) (val : Nat → Int) :
    ∀ fuel pos l j, l.length - pos ≤ fuel → ¬ desc pos j = true →
      (siftupLoopL m val pos l).2.getD j 0 = l.getD j 0 := by
  intro fuel
  induction fuel with
  | zero =>
    intro pos l j h hj
    rw [siftupLoopL_eq]
    split
    · omega
    · rfl
  | succ fuel ih =>
    intro pos l j h hj
    have hjpos : j ≠ pos := fun he => hj (he ▸ desc_self pos)
    rw [siftupLoopL_eq]
    split
    · split
      · rw [ih _ _ j (by simp only [List.length_set]; omega)
          (fun hd => hj (desc_trans (desc_child_right (desc_self pos)) hd))]
        rw [getD_set_ne _ _ (by omega)]
      · rw [ih _ _ j (by simp only [List.length_set]; omega)
          (fun hd => hj (desc_trans (desc_child_left (desc_self pos)) hd))]
        rw [getD_set_ne _ _ (by omega)]
    · rfl

/-- Writing any `x` into the loop's final hole recovers a permutation of
the original list with `x` at the starting hole. -/
theorem siftupLoopL_perm (m : Bool) (val : Nat → Int) :
    ∀ fuel pos l x, l.length - pos ≤ fuel → pos < l.length →
      (((siftupLoopL m val pos l).2.set (siftupLoopL m val pos l).1 x)).Perm
        (l.set pos x) := by
  intro fuel
  induction fuel with
  | zero =>
    intro pos l x h hpos
    rw [siftupLoopL_eq]
    split
    · omega
    · exact List.Perm.refl _
  | succ fuel ih =>
    intro pos l x h hpos
    rw [siftupLoopL_eq]
    split
    · split
      · refine (ih _ _ x (by simp only [List.length_set]; omega)
          (by simp only [List.length_set]; omega)).trans ?_
        exact set_set_perm x hpos (by omega) (by omega)
      · refine (ih _ _ x (by simp only [List.length_set]; omega)
          (by simp only [List.length_set]; omega)).trans ?_
        exact set_set_perm x hpos (by omega) (by omega)
    · exact List.Perm.refl _

/-- Invariant of `_siftup_min`/`_siftup_max`'s bubbling loop: the hole
descends to a leaf of the subtree of the start index `p`; apart from edges
touching the hole, all edges with parent index at least `p` stay ordered. -/
theorem siftupLoopL_main (m : Bool) (val : Nat → Int) (p : Nat) :
    ∀ fuel pos l, l.length - pos ≤ fuel →
      pos < l.length → desc p pos = true →
      (∀ c, c < l.length → 0 < c → p ≤ parent c → c ≠ pos → parent c ≠ pos →
        hOrdAt m val l c) →
      (pos ≠ p → ∀ c, (c = 2 * pos + 1 ∨ c = 2 * pos + 2) → c < l.length →
        ¬ elt m val (l.getD c 0) (l.getD (parent pos) 0) = true) →
      (siftupLoopL m val pos l).1 < l.length ∧
      desc p (siftupLoopL m val pos l).1 = true ∧
      l.length ≤ 2 * (siftupLoopL m val pos l).1 + 1 ∧
      (∀ c, c < l.length → 0 < c → p ≤ parent c → c ≠ (siftupLoopL m val pos l).1 →
        parent c ≠ (siftupLoopL m val pos l).1 →
        hOrdAt m val (siftupLoopL m val pos l).2 c) := by
  intro fuel
  induction fuel with
  | zero =>
    intro pos l h hpos hdesc hB2 hB3
    rw [siftupLoopL_eq]
    split
    · omega
    · exact ⟨hpos, hdesc, by omega, fun c hc hc0 hcp hne hpne => hB2 c hc hc0 hcp hne hpne⟩
  | succ fuel ih =>
    intro pos l h hpos hdesc hB2 hB3
    rw [siftupLoopL_eq]
    by_cases hch : 2 * pos + 1 < l.length
    · simp only [if_pos hch]
      have hppos : p ≤ pos := desc_le hdesc
      -- shared argument for either winning child `cp`
      have hstep : ∀ cp, (cp = 2 * pos + 1 ∨ cp = 2 * pos + 2) → cp < l.length →
          (∀ c, (c = 2 * pos + 1 ∨ c = 2 * pos + 2) → c < l.length → c ≠ cp →
            ¬ elt m val (l.getD c 0) (l.getD cp 0) = true) →
          (∀ c, c < l.length → 0 < c → p ≤ parent c → c ≠ cp → parent c ≠ cp →
            hOrdAt m val (l.set pos (l.getD cp 0)) c) ∧
          (cp ≠ p → ∀ c, (c = 2 * cp + 1 ∨ c = 2 * cp + 2) → c < l.length →
            ¬ elt m val ((l.set pos (l.getD cp 0)).getD c 0)
              ((l.set pos (l.getD cp 0)).getD (parent cp) 0) = true) := by
        intro cp hcp hcplen hwin
        have hcpgt : pos < cp := by omega
        have hparcp : parent cp = pos := by
          rcases hcp with h' | h'
          · rw [h', parent_left]
          · rw [h', parent_right]
        constructor
        · intro c hc hc0 hcpar hne hpne
          unfold hOrdAt
          by_cases hcpos : c = pos
          · subst hcpos
            have hplc : parent c < c := parent_lt hc0
            have hposp : c ≠ p := by omega
            rw [getD_set_self _ hpos, getD_set_ne _ _ (by omega)]
            exact hB3 hposp cp hcp hcplen
          · by_cases hpc : parent c = pos
            · have hcchild : c = 2 * pos + 1 ∨ c = 2 * pos + 2 :=
                child_of_parent hpc hc0
              rw [getD_set_ne _ _ (by omega), hpc, getD_set_self _ hpos]
              exact hwin c hcchild hc hne
            · rw [getD_set_ne _ _ (by omega), getD_set_ne _ _ (by omega)]
              exact hB2 c hc hc0 hcpar hcpos hpc
        · intro _ c hcc hclen
          have hgc : parent c = cp := by
            rcases hcc with h' | h'
            · rw [h', parent_left]
            · rw [h', parent_right]
          have hcgt : cp < c := by omega
          rw [getD_set_ne _ _ (by omega), hparcp, getD_set_self _ hpos]
          have := hB2 c hclen (by omega) (by rw [hgc]; omega) (by omega)
            (by rw [hgc]; omega)
          unfold hOrdAt at this
          rw [hgc] at this
          exact this
      by_cases h2 : 2 * pos + 2 < l.length ∧
          elt m val (l.getD (2 * pos + 2) 0) (l.getD (2 * pos + 1) 0) = true
      · simp only [if_pos h2]
        have hw := hstep (2 * pos + 2) (Or.inr rfl) h2.1
          (by
            intro c hcc hclen hne
            have hc1 : c = 2 * pos + 1 := by omega
            subst hc1
            exact elt_asymm h2.2)
        have hlen2 : (l.set pos (l.getD (2 * pos + 2) 0)).length = l.length :=
          List.length_set _ _ _
        have hwa := hw.1
        have hwb := hw.2
        rw [← hlen2] at hwa hwb
        have := ih (2 * pos + 2) (l.set pos (l.getD (2 * pos + 2) 0))
          (by rw [hlen2]; omega) (by rw [hlen2]; omega)
          (desc_child_right hdesc) hwa hwb
        rw [hlen2] at this
        exact this
      · simp only [if_neg h2]
        have hw := hstep (2 * pos + 1) (Or.inl rfl) hch
          (by
            intro c hcc hclen hne
            have hc2 : c = 2 * pos + 2 := by omega
            subst hc2
            intro hcon
            exact h2 ⟨hclen, hcon⟩)
        have hlen2 : (l.set pos (l.getD (2 * pos + 1) 0)).length = l.length :=
          List.length_set _ _ _
        have hwa := hw.1
        have hwb := hw.2
        rw [← hlen2] at hwa hwb
        have := ih (2 * pos + 1) (l.set pos (l.getD (2 * pos + 1) 0))
          (by rw [hlen2]; omega) (by rw [hlen2]; omega)
          (desc_child_left hdesc) hwa hwb
        rw [hlen2] at this
        exact this
    · simp only [if_neg hch]
      exact ⟨hpos, hdesc, by omega, fun c hc hc0 hcp hne hpne => hB2 c hc hc0 hcp hne hpne⟩

/-- Start-hole content after the bubbling loop: untouched (no child moved)
or replaced by the content of one immediate child. -/
theorem siftupLoopL_getD_start (m : Bool) (val : Nat → Int) (pos : Nat)
    (l : List Nat) (hpos : pos < l.length) :
    siftupLoopL m val pos l = (pos, l) ∨
    (∃ c, (c = 2 * pos + 1 ∨ c = 2 * pos + 2) ∧ c < l.length ∧
      (siftupLoopL m val pos l).2.getD pos 0 = l.getD c 0) := by
  rw [siftupLoopL_eq]
  by_cases hch : 2 * pos + 1 < l.length
  · simp only [if_pos hch]
    right
    by_cases h2 : 2 * pos + 2 < l.length ∧
        elt m val (l.getD (2 * pos + 2) 0) (l.getD (2 * pos + 1) 0) = true
    · simp only [if_pos h2]
      refine ⟨2 * pos + 2, Or.inr rfl, h2.1, ?_⟩
      rw [siftupLoopL_frame m val
          ((l.set pos (l.getD (2 * pos + 2) 0)).length - (2 * pos + 2)) _ _ pos
          (Nat.le_refl _) (not_desc_of_lt (by omega))]
      exact getD_set_self _ hpos
    · simp only [if_neg h2]
      refine ⟨2 * pos + 1, Or.inl rfl, hch, ?_⟩
      rw [siftupLoopL_frame m val
          ((l.set pos (l.getD (2 * pos + 1) 0)).length - (2 * pos + 1)) _ _ pos
          (Nat.le_refl _) (not_desc_of_lt (by omega))]
      exact getD_set_self _ hpos
  · simp only [if_neg hch]
    exact Or.inl trivial

/-- Main ordering fact for the sink motion `_siftup_min` / `_siftup_max`
at `p`: if every edge with parent index at least `p` other than the edges
out of `p` itself is ordered, afterwards every edge with parent index at
least `p` is ordered. -/
theorem siftupInplaceL_heapFrom (m : Bool) (val : Nat → Int) (p : Nat)
    (l : List Nat) (hp : p < l.length)
    (hexc : ∀ c, c < l.length → 0 < c → p ≤ parent c → parent c ≠ p →
      hOrdAt m val l c) :
    heapFrom m val (siftupInplaceL m val p l) p := by
  unfold siftupInplaceL
  have hmain := siftupLoopL_main m val p (l.length - p) p l (Nat.le_refl _)
    hp (desc_self p)
    (fun c hc hc0 hcp hne hpne => hexc c hc hc0 hcp hpne)
    (fun hne => absurd rfl hne)
  obtain ⟨hleaf, hdleaf, hnoch, hB2⟩ := hmain
  have hlenf : (siftupLoopL m val p l).2.length = l.length :=
    siftupLoopL_len m val p l
  apply siftdownL_heapFrom m val p (l.getD p 0) (siftupLoopL m val p l).1
    (siftupLoopL m val p l).2 (by omega) hdleaf
  · intro c hc hc0 hcp hcne
    rw [hlenf] at hc
    have hpcne : parent c ≠ (siftupLoopL m val p l).1 := by
      intro he
      have := child_of_parent he hc0
      omega
    unfold hOrdAt
    rw [getD_set_ne _ _ (by omega), getD_set_ne _ _ (by omega)]
    exact hB2 c hc hc0 hcp hcne hpcne
  · intro _ c hcc hclen
    rw [hlenf] at hclen
    omega

/-- Structural facts about the bubbling loop: the final hole is a leaf of
the subtree of the start index, in range. -/
theorem siftupLoopL_struct (m : Bool) (val : Nat → Int) :
    ∀ fuel pos l, l.length - pos ≤ fuel → pos < l.length →
      (siftupLoopL m val pos l).1 < l.length ∧
      desc pos (siftupLoopL m val pos l).1 = true ∧
      l.length ≤ 2 * (siftupLoopL m val pos l).1 + 1 := by
  intro fuel
  induction fuel with
  | zero =>
    intro pos l h hpos
    rw [siftupLoopL_eq]
    split
    · omega
    · exact ⟨hpos, desc_self pos, by omega⟩
  | succ fuel ih =>
    intro pos l h hpos
    rw [siftupLoopL_eq]
    by_cases hch : 2 * pos + 1 < l.length
    · simp only [if_pos hch]
      by_cases h2 : 2 * pos + 2 < l.length ∧
          elt m val (l.getD (2 * pos + 2) 0) (l.getD (2 * pos + 1) 0) = true
      · simp only [if_pos h2]
        have := ih (2 * pos + 2) (l.set pos (l.getD (2 * pos + 2) 0))
          (by simp only [List.length_set]; omega)
          (by simp only [List.length_set]; omega)
        simp only [List.length_set] at this
        exact ⟨this.1, desc_trans (desc_child_right (desc_self pos)) this.2.1,
          this.2.2⟩
      · simp only [if_neg h2]
        have := ih (2 * pos + 1) (l.set pos (l.getD (2 * pos + 1) 0))
          (by simp only [List.length_set]; omega)
          (by simp only [List.length_set]; omega)
        simp only [List.length_set] at this
        exact ⟨this.1, desc_trans (desc_child_left (desc_self pos)) this.2.1,
          this.2.2⟩
    · simp only [if_neg hch]
      exact ⟨hpos, desc_self pos, by omega⟩

/-- `_siftup_min` / `_siftup_max` permute the backing list. -/
theorem siftupInplaceL_perm (m : Bool) (val : Nat → Int) (p : Nat)
    (l : List Nat) (hp : p < l.length) :
    (siftupInplaceL m val p l).Perm l := by
  unfold siftupInplaceL
  have hs := siftupLoopL_struct m val (l.length - p) p l (Nat.le_refl _) hp
  have h1 := siftdownL_perm m val p (l.getD p 0) (siftupLoopL m val p l).1
    (siftupLoopL m val p l).2 (by rw [siftupLoopL_len]; exact hs.1)
  exact h1.trans ((siftupLoopL_perm m val (l.length - p) p l (l.getD p 0)
    (Nat.le_refl _) hp).trans (by rw [set_getD_self hp]))

/-- `_siftup_min` / `_siftup_max` write only inside the subtree of `p`. -/
theorem siftupInplaceL_frame (m : Bool) (val : Nat → Int) (p : Nat)
    (l : List Nat) (j : Nat) (hp : p < l.length) (hj : ¬ desc p j = true) :
    (siftupInplaceL m val p l).getD j 0 = l.getD j 0 := by
  unfold siftupInplaceL
  have hs := siftupLoopL_struct m val (l.length - p) p l (Nat.le_refl _) hp
  rw [siftdownL_frame m val p _ _ _ j hs.2.1 hj]
  exact siftupLoopL_frame m val (l.length - p) p l j (Nat.le_refl _) hj

/-- The content at `p` after the sink motion is the old content at `p` or
the old content of one of `p`'s immediate children (the entry that rose
into the freed slot). -/
theorem siftupInplaceL_getD_p (m : Bool) (val : Nat → Int) (p : Nat)
    (l : List Nat) (hp : p < l.length) :
    (siftupInplaceL m val p l).getD p 0 = l.getD p 0 ∨
    (∃ c, (c = 2 * p + 1 ∨ c = 2 * p + 2) ∧ c < l.length ∧
      (siftupInplaceL m val p l).getD p 0 = l.getD c 0) := by
  unfold siftupInplaceL
  have hs := siftupLoopL_struct m val (l.length - p) p l (Nat.le_refl _) hp
  have hlenf : (siftupLoopL m val p l).2.length = l.length :=
    siftupLoopL_len m val p l
  rcases siftupLoopL_getD_start m val p l hp with heq | ⟨c, hcc, hclen, hcget⟩
  · rw [heq]
    left
    rw [siftdownL_eq]
    simp only [Nat.lt_irrefl, if_neg (by omega : ¬ p < p)]
    exact getD_set_self _ hp
  · rcases siftdownL_getD_sp m val p (l.getD p 0) (siftupLoopL m val p l).1
        (siftupLoopL m val p l).2 (by omega) hs.2.1 with h | ⟨hne, h⟩
    · left
      exact h
    · right
      exact ⟨c, hcc, hclen, by rw [h, hcget]⟩

/-! ### Public heap operations, list level -/

/-- List-level `Heap.push(item)`: append, then rise from the new last
index (`self._siftdown(0, len(self.heap)-1, item)`). -/
def pushL (m : Bool) (val : Nat → Int) (item : Nat) (l : List Nat) : List Nat :=
  siftdownL m val 0 ((l ++ [item]).length - 1) item (l ++ [item])

/-- List-level body of `Heap.pop()` for a non-empty heap: remove the last
element; if the heap became empty it was the answer, otherwise the old
root is the answer and the last element is sunk from the root.  Returns
`(popped entry, new backing list)`. -/
def popCoreL (m : Bool) (val : Nat → Int) (l : List Nat) : Nat × List Nat :=
  let lastelt := l.getD (l.length - 1) 0
  let l1 := l.dropLast
  if l1.length = 0 then
    (lastelt, l1)
  else
    (l1.getD 0 0, siftupL m val 0 lastelt l1)

/-- List-level body of `Heap.remove(item)` after the position lookup and
the `heap[pos] is item` assertion: pop the last element; when the removed
slot is still in range, repair with the one-test dispatch exactly as the
source writes it (note the min and max branches pair the test with
opposite sift directions). -/
def removeCoreL (m : Bool) (val : Nat → Int) (p item : Nat) (l : List Nat) :
    List Nat :=
  let lastelt := l.getD (l.length - 1) 0
  let l1 := l.dropLast
  if p < l1.length then
    if m then
      if elt m val lastelt item then siftdownL m val 0 p lastelt l1
      else siftupL m val p lastelt l1
    else
      if elt m val lastelt item then siftupL m val p lastelt l1
      else siftdownL m val 0 p lastelt l1
  else l1

/-- List-level body of `Heap.replace(item)` for a non-empty heap: return
the root and sink `item` from index 0 (no comparison against the root). -/
def replaceCoreL (m : Bool) (val : Nat → Int) (item : Nat) (l : List Nat) :
    Nat × List Nat :=
  (l.getD 0 0, siftupL m val 0 item l)

/-- List-level `Heap.pushpop(item)`: on a non-empty heap, test whether the
root strictly precedes (min) / follows (max) `item`; if so replace,
otherwise hand `item` straight back. -/
def pushpopL (m : Bool) (val : Nat → Int) (item : Nat) (l : List Nat) :
    Nat × List Nat :=
  if 0 < l.length then
    if elt m val (l.getD 0 0) item then replaceCoreL m val item l
    else (item, l)
  else (item, l)

/-- List-level body of `Heap.fix_after_delta(item, is_smaller)` after the
position lookup: rise when the change direction aligns with the heap
direction (`is_smaller == self.is_min`), otherwise sink in place. -/
def fixCoreL (m : Bool) (val : Nat → Int) (p item : Nat) (is_smaller : Bool)
    (l : List Nat) : List Nat :=
  if is_smaller = m then siftdownL m val 0 p item l
  else siftupInplaceL m val p l

/-- The `for i in reversed(range(k))` loop of `Heap.heapify`, sinking each
index from `k - 1` down to `0`. -/
def repairDownL (m : Bool) (val : Nat → Int) : Nat → List Nat → List Nat
  | 0, l => l
  | i + 1, l => repairDownL m val i (siftupInplaceL m val i l)

/-- List-level `Heap.heapify(x)`: the backing list becomes `x` and is
repaired bottom-up from the last non-leaf index `n // 2 - 1`. -/
def heapifyL (m : Bool) (val : Nat → Int) (x : List Nat) : List Nat :=
  repairDownL m val (x.length / 2) x

/-- Fuelled "pop until empty" at list level; fuel `l.length` empties the
heap.  Returns `(popped ids in order, final backing list)`. -/
def drainGoL (m : Bool) (val : Nat → Int) : Nat → List Nat → List Nat × List Nat
  | 0, l => ([], l)
  | fuel + 1, l =>
    if l.length = 0 then ([], l)
    else
      let r := popCoreL m val l
      let rest := drainGoL m val fuel r.2
      (r.1 :: rest.1, rest.2)

/-! ### Ordering, content and permutation facts for the operations -/

theorem pushL_length (m : Bool) (val : Nat → Int) (item : Nat) (l : List Nat) :
    (pushL m val item l).length = l.length + 1 := by
  unfold pushL
  rw [siftdownL_length, List.length_append]
  simp

theorem pushL_perm (m : Bool) (val : Nat → Int) (item : Nat) (l : List Nat) :
    (pushL m val item l).Perm (l ++ [item]) := by
  unfold pushL
  have hlen : (l ++ [item]).length - 1 = l.length := by
    rw [List.length_append]
    simp
  rw [hlen]
  have h := siftdownL_perm m val 0 item l.length (l ++ [item])
    (by rw [List.length_append]; simp)
  rwa [show (l ++ [item]).set l.length item = l ++ [item] by
    have := getD_append_right_self l item
    calc (l ++ [item]).set l.length item
        = (l ++ [item]).set l.length ((l ++ [item]).getD l.length 0) := by rw [this]
      _ = l ++ [item] := set_getD_self (by rw [List.length_append]; simp)] at h

theorem pushL_heapOrd (m : Bool) (val : Nat → Int) (item : Nat) (l : List Nat)
    (h : heapOrd m val l) : heapOrd m val (pushL m val item l) := by
  unfold pushL
  have hlen : (l ++ [item]).length - 1 = l.length := by
    rw [List.length_append]
    simp
  rw [hlen, heapOrd_iff_heapFrom]
  apply siftdownL_heapFrom m val 0 item l.length (l ++ [item])
    (by rw [List.length_append]; simp) (desc_zero _)
  · intro c hc hc0 _ hcne
    rw [List.length_append] at hc
    simp only [List.length_cons, List.length_nil] at hc
    have hcl : c < l.length := by omega
    have hset : (l ++ [item]).set l.length item = l ++ [item] := by
      have := getD_append_right_self l item
      calc (l ++ [item]).set l.length item
          = (l ++ [item]).set l.length ((l ++ [item]).getD l.length 0) := by rw [this]
        _ = l ++ [item] := set_getD_self (by rw [List.length_append]; simp)
    rw [hset]
    unfold hOrdAt
    have hpc : parent c < c := parent_lt hc0
    rw [getD_append_left hcl, getD_append_left (by omega)]
    exact h c hcl hc0
  · intro hne c hcc hclen
    rw [List.length_append] at hclen
    simp only [List.length_cons, List.length_nil] at hclen
    omega

theorem popCoreL_fst (m : Bool) (val : Nat → Int) (l : List Nat)
    (h : l ≠ []) : (popCoreL m val l).1 = l.getD 0 0 := by
  unfold popCoreL
  have hl : 0 < l.length := List.length_pos.mpr h
  by_cases h1 : l.dropLast.length = 0
  · simp only [if_pos h1]
    have : l.length = 1 := by
      rw [List.length_dropLast] at h1
      omega
    congr 1
    omega
  · simp only [if_neg h1]
    rw [List.length_dropLast] at h1
    exact getD_dropLast (by omega)

theorem popCoreL_length (m : Bool) (val : Nat → Int) (l : List Nat) :
    (popCoreL m val l).2.length = l.length - 1 := by
  unfold popCoreL
  by_cases h1 : l.dropLast.length = 0
  · simp only [if_pos h1]
    rw [List.length_dropLast]
  · simp only [if_neg h1]
    unfold siftupL
    rw [siftupInplaceL_length, List.length_set, List.length_dropLast]

theorem popCoreL_heapOrd (m : Bool) (val : Nat → Int) (l : List Nat)
    (h : heapOrd m val l) : heapOrd m val (popCoreL m val l).2 := by
  unfold popCoreL
  by_cases h1 : l.dropLast.length = 0
  · simp only [if_pos h1]
    intro c hc hc0
    omega
  · simp only [if_neg h1]
    unfold siftupL
    rw [heapOrd_iff_heapFrom]
    have hlen : l.dropLast.length = l.length - 1 := List.length_dropLast l
    apply siftupInplaceL_heapFrom m val 0
      (l.dropLast.set 0 (l.getD (l.length - 1) 0))
      (by rw [List.length_set]; omega)
    intro c hc hc0 _ hpne
    rw [List.length_set] at hc
    unfold hOrdAt
    have hpc : parent c < c := parent_lt hc0
    rw [getD_set_ne _ _ (by omega), getD_set_ne _ _ (fun he => hpne he.symm),
        getD_dropLast (by omega), getD_dropLast (by omega)]
    exact h c (by omega) hc0

theorem popCoreL_perm (m : Bool) (val : Nat → Int) (l : List Nat)
    (h : l ≠ []) : ((popCoreL m val l).1 :: (popCoreL m val l).2).Perm l := by
  have hl : 0 < l.length := List.length_pos.mpr h
  have hsplit := dropLast_append_self h
  unfold popCoreL
  by_cases h1 : l.dropLast.length = 0
  · simp only [if_pos h1]
    have h2 : l.dropLast = [] := List.length_eq_zero.mp h1
    conv_rhs => rw [← hsplit, h2]
    simp [h2]
  · simp only [if_neg h1]
    rw [List.length_dropLast] at h1
    have hperm : (siftupL m val 0 (l.getD (l.length - 1) 0) l.dropLast).Perm
        (l.dropLast.set 0 (l.getD (l.length - 1) 0)) := by
      unfold siftupL
      exact siftupInplaceL_perm m val 0 _ (by rw [List.length_set, List.length_dropLast]; omega)
    rw [List.perm_iff_count]
    intro x
    have hc1 := (List.Perm.cons (l.dropLast.getD 0 0) hperm).count_eq x
    rw [hc1, count_cons_nat]
    have hc2 := count_set (l := l.dropLast) (i := 0)
      (l.getD (l.length - 1) 0) x (by rw [List.length_dropLast]; omega)
    have hc3 : l.count x = l.dropLast.count x
        + (if l.getD (l.length - 1) 0 = x then 1 else 0) := by
      conv_lhs => rw [← hsplit]
      rw [List.count_append, count_cons_nat, List.count_nil]
      omega
    omega

/-- In a heap, no entry strictly precedes the root. -/
theorem heapOrd_root (m : Bool) (val : Nat → Int) (l : List Nat)
    (h : heapOrd m val l) :
    ∀ i, i < l.length → ¬ elt m val (l.getD i 0) (l.getD 0 0) = true := by
  intro i
  induction i using Nat.strong_induction_on with
  | _ i ih =>
    intro hi
    rcases Nat.eq_zero_or_pos i with h0 | h0
    · subst h0
      exact elt_irrefl m val _
    · have hpar := ih (parent i) (parent_lt h0) (by have := parent_lt h0; omega)
      exact nelt_trans hpar (h i hi h0)

theorem elt_congr {val val2 : Nat → Int} (m : Bool) {a b : Nat}
    (h1 : val a = val2 a) (h2 : val b = val2 b) :
    elt m val a b = elt m val2 a b := by
  simp [elt, h1, h2]

theorem mem_exists_getD {l : List Nat} {b : Nat} (h : b ∈ l) :
    ∃ i, i < l.length ∧ l.getD i 0 = b := by
  induction l with
  | nil => simp at h
  | cons x t ih =>
    rcases List.mem_cons.mp h with rfl | h'
    · exact ⟨0, by simp, rfl⟩
    · obtain ⟨i, hi, hg⟩ := ih h'
      exact ⟨i + 1, by simp; omega, by rw [getD_cons_succ_nat]; exact hg⟩

/-- Draining a heap by repeated `pop()`: the popped entries are a
permutation of the heap in direction-sorted value order, and the heap ends
empty. -/
theorem drainGoL_spec (m : Bool) (val : Nat → Int) :
    ∀ fuel l, l.length ≤ fuel → heapOrd m val l →
      (drainGoL m val fuel l).1.Perm l ∧ (drainGoL m val fuel l).2 = [] ∧
      List.Pairwise (fun a b => vle m (val a) (val b)) (drainGoL m val fuel l).1 := by
  intro fuel
  induction fuel with
  | zero =>
    intro l hf _
    have : l = [] := List.length_eq_zero.mp (by omega)
    subst this
    exact ⟨List.Perm.refl _, rfl, List.Pairwise.nil⟩
  | succ fuel ih =>
    intro l hf hord
    show _ ∧ _ ∧ _
    unfold drainGoL
    by_cases h0 : l.length = 0
    · have : l = [] := List.length_eq_zero.mp h0
      subst this
      simp only [if_pos rfl]
      exact ⟨List.Perm.refl _, rfl, List.Pairwise.nil⟩
    · simp only [if_neg h0]
      have hne : l ≠ [] := fun he => h0 (he ▸ rfl)
      have hlen := popCoreL_length m val l
      obtain ⟨hperm, hnil, hsort⟩ := ih (popCoreL m val l).2 (by omega)
        (popCoreL_heapOrd m val l hord)
      refine ⟨?_, hnil, ?_⟩
      · exact (List.Perm.cons _ hperm).trans (popCoreL_perm m val l hne)
      · refine List.Pairwise.cons ?_ hsort
        intro b hb
        have hbmem : b ∈ l := by
          have h1 : b ∈ (popCoreL m val l).2 := hperm.mem_iff.mp hb
          exact (popCoreL_perm m val l hne).mem_iff.mp (List.mem_cons_of_mem _ h1)
        obtain ⟨i, hi, hg⟩ := mem_exists_getD hbmem
        have := heapOrd_root m val l hord i hi
        rw [hg, nelt_iff_vle, popCoreL_fst m val l hne] at *
        exact this

/-- Ordering repair of `fix_after_delta`: the pre-state is a valid heap
under the old values `val0`; only `item`'s value changed, in the declared
direction; afterwards the heap is valid under the new values `val`. -/
theorem fixCoreL_heapOrd (m : Bool) (val0 val : Nat → Int) (p item : Nat)
    (is_smaller : Bool) (l : List Nat)
    (hp : p < l.length) (hitem : l.getD p 0 = item)
    (honly : ∀ j, j < l.length → j ≠ p → l.getD j 0 ≠ item)
    (hagree : ∀ e, e ≠ item → val e = val0 e)
    (hord : heapOrd m val0 l)
    (hdir : (is_smaller = true ∧ val item ≤ val0 item) ∨
            (is_smaller = false ∧ val0 item ≤ val item)) :
    heapOrd m val (fixCoreL m val p item is_smaller l) := by
  unfold fixCoreL
  by_cases hbr : is_smaller = m
  · -- rise: the change moved `item` toward the root's side
    have hvr : vle m (val item) (val0 item) := by
      rcases hdir with ⟨hs, hle⟩ | ⟨hs, hle⟩ <;> subst hs <;> rw [← hbr] <;>
        simpa [vle] using hle
    simp only [if_pos hbr]
    rw [heapOrd_iff_heapFrom]
    have hset : l.set p item = l := by
      rw [← hitem]
      exact set_getD_self hp
    apply siftdownL_heapFrom m val 0 item p l hp (desc_zero p)
    · intro c hc hc0 _ hcne
      rw [hset]
      unfold hOrdAt
      have hplt : parent c < c := parent_lt hc0
      by_cases hpc : parent c = p
      · rw [hpc, hitem, nelt_iff_vle]
        have hcne2 : l.getD c 0 ≠ item := honly c hc (by omega)
        rw [hagree _ hcne2]
        refine vle_trans hvr ?_
        have hx := hord c hc hc0
        unfold hOrdAt at hx
        rw [hpc, hitem, nelt_iff_vle] at hx
        exact hx
      · have h1 : l.getD c 0 ≠ item := honly c hc hcne
        have h2 : l.getD (parent c) 0 ≠ item := honly (parent c) (by omega) hpc
        rw [elt_congr m (hagree _ h1) (hagree _ h2)]
        exact hord c hc hc0
    · intro hne c hcc hclen
      have hc0 : 0 < c := by omega
      have hcnep : c ≠ p := by omega
      have hpp : parent p < p := parent_lt (Nat.pos_of_ne_zero hne)
      have h1 : l.getD c 0 ≠ item := honly c hclen hcnep
      have h2 : l.getD (parent p) 0 ≠ item := honly (parent p) (by omega) (by omega)
      rw [nelt_iff_vle, hagree _ h1, hagree _ h2]
      have ha := hord p hp (by omega)
      unfold hOrdAt at ha
      rw [hitem, nelt_iff_vle] at ha
      have hb := hord c hclen hc0
      unfold hOrdAt at hb
      have hparc : parent c = p := by
        rcases hcc with h' | h'
        · rw [h', parent_left]
        · rw [h', parent_right]
      rw [hparc, hitem, nelt_iff_vle] at hb
      exact vle_trans ha hb
  · -- sink: the change moved `item` toward the leaves' side
    have hvs : vle m (val0 item) (val item) := by
      rcases hdir with ⟨hs, hle⟩ | ⟨hs, hle⟩ <;> subst hs <;>
        rcases Bool.eq_false_or_eq_true m with hm | hm <;> subst hm <;>
        first
        | exact absurd rfl hbr
        | simpa [vle] using hle
    simp only [if_neg hbr]
    have hreg := siftupInplaceL_heapFrom m val p l hp
      (by
        intro c hc hc0 hcp hpne
        have hplt : parent c < c := parent_lt hc0
        have h1 : l.getD c 0 ≠ item := honly c hc (by omega)
        have h2 : l.getD (parent c) 0 ≠ item := honly (parent c) (by omega)
          (by omega)
        unfold hOrdAt
        rw [elt_congr m (hagree _ h1) (hagree _ h2)]
        exact hord c hc hc0)
    intro c hc hc0
    rw [siftupInplaceL_length] at hc
    by_cases hcp : p ≤ parent c
    · exact hreg c (by rw [siftupInplaceL_length]; exact hc) hc0 hcp
    · push_neg at hcp
      have hplt : parent c < c := parent_lt hc0
      have hfr_par : (siftupInplaceL m val p l).getD (parent c) 0
          = l.getD (parent c) 0 :=
        siftupInplaceL_frame m val p l (parent c) hp (not_desc_of_lt hcp)
      have hgp_ne : l.getD (parent c) 0 ≠ item :=
        honly (parent c) (by omega) (by omega)
      by_cases hcisp : c = p
      · subst hcisp
        unfold hOrdAt
        rw [hfr_par, nelt_iff_vle, hagree _ hgp_ne]
        have hpar0 : vle m (val0 (l.getD (parent c) 0)) (val0 item) := by
          have hx := hord c hp hc0
          unfold hOrdAt at hx
          rw [hitem, nelt_iff_vle] at hx
          exact hx
        rcases siftupInplaceL_getD_p m val c l hp with hcc | ⟨c2, hc2c, hc2len, hcc⟩
        · rw [hcc, hitem]
          exact vle_trans hpar0 hvs
        · rw [hcc]
          have hc2ne : l.getD c2 0 ≠ item := honly c2 hc2len (by omega)
          rw [hagree _ hc2ne]
          have hb := hord c2 hc2len (by omega)
          unfold hOrdAt at hb
          have hparc2 : parent c2 = c := by
            rcases hc2c with h' | h'
            · rw [h', parent_left]
            · rw [h', parent_right]
          rw [hparc2, hitem, nelt_iff_vle] at hb
          exact vle_trans hpar0 hb
      · have hcd : ¬ desc p c = true := by
          intro hd
          have := desc_parent_ge hd hcisp
          omega
        have hfr_c := siftupInplaceL_frame m val p l c hp hcd
        unfold hOrdAt
        rw [hfr_c, hfr_par]
        have h1 : l.getD c 0 ≠ item := honly c hc hcisp
        rw [elt_congr m (hagree _ h1) (hagree _ hgp_ne)]
        exact hord c hc hc0

theorem fixCoreL_perm (m : Bool) (val : Nat → Int) (p item : Nat)
    (is_smaller : Bool) (l : List Nat) (hp : p < l.length)
    (hitem : l.getD p 0 = item) :
    (fixCoreL m val p item is_smaller l).Perm l := by
  unfold fixCoreL
  split
  · have h := siftdownL_perm m val 0 item p l hp
    have hset : l.set p item = l := by
      rw [← hitem]
      exact set_getD_self hp
    rwa [hset] at h
  · exact siftupInplaceL_perm m val p l hp

theorem fixCoreL_length (m : Bool) (val : Nat → Int) (p item : Nat)
    (is_smaller : Bool) (l : List Nat) :
    (fixCoreL m val p item is_smaller l).length = l.length := by
  unfold fixCoreL
  split
  · rw [siftdownL_length]
  · rw [siftupInplaceL_length]

/-- Before any repair, every edge whose parent is at least `n // 2` is
vacuously ordered: such parents have no children in range. -/
theorem heapFrom_init (m : Bool) (val : Nat → Int) (x : List Nat) :
    heapFrom m val x (x.length / 2) := by
  intro c hc hc0 hcp
  have h2 := parent_cases hc0
  exact absurd hc (by omega)

theorem repairDownL_heapFrom (m : Bool) (val : Nat → Int) :
    ∀ i l, i ≤ l.length → heapFrom m val l i →
      heapFrom m val (repairDownL m val i l) 0 := by
  intro i
  induction i with
  | zero =>
    intro l _ h
    exact h
  | succ i ih =>
    intro l hle h
    show heapFrom m val (repairDownL m val i (siftupInplaceL m val i l)) 0
    apply ih
    · rw [siftupInplaceL_length]
      omega
    · exact siftupInplaceL_heapFrom m val i l (by omega)
        (fun c hc hc0 hcp hpne => h c hc hc0 (by omega))

theorem repairDownL_perm (m : Bool) (val : Nat → Int) :
    ∀ i l, i ≤ l.length → (repairDownL m val i l).Perm l := by
  intro i
  induction i with
  | zero =>
    intro l _
    exact List.Perm.refl _
  | succ i ih =>
    intro l hle
    show (repairDownL m val i (siftupInplaceL m val i l)).Perm l
    refine (ih _ ?_).trans (siftupInplaceL_perm m val i l (by omega))
    rw [siftupInplaceL_length]
    omega

theorem heapifyL_heapOrd (m : Bool) (val : Nat → Int) (x : List Nat) :
    heapOrd m val (heapifyL m val x) := by
  rw [heapOrd_iff_heapFrom]
  exact repairDownL_heapFrom m val (x.length / 2) x (Nat.div_le_self _ _)
    (heapFrom_init m val x)

theorem heapifyL_perm (m : Bool) (val : Nat → Int) (x : List Nat) :
    (heapifyL m val x).Perm x :=
  repairDownL_perm m val (x.length / 2) x (Nat.div_le_self _ _)

theorem heapifyL_length (m : Bool) (val : Nat → Int) (x : List Nat) :
    (heapifyL m val x).length = x.length :=
  (heapifyL_perm m val x).length_eq

/-! ### Stateful layer: the heap together with entry position state

`St` carries the backing list and the entries' position store
(entry id → heap identity → recorded index).  Every operation mirrors the
source statement-for-statement; its `.heap` component projects onto the
list-level function of the same name. -/

structure St where
  heap : List Nat
  ps : Nat → Nat → Option Nat

/-- `entry.setpos(heap, pos)` in the `MultiHVal` style: store `pos` under
the heap's identity; `none` (the source's `-1`) deletes the key. -/
def setpos (hid e : Nat) (p : Option Nat) (s : St) : St :=
  { s with ps := fun e2 h2 => if e2 = e ∧ h2 = hid then p else s.ps e2 h2 }

/-- Invariant 3 of the spec, as checked by `_assert_at`: the entry at each
index `i` reports position `i` for this heap. -/
def posConsistent (hid : Nat) (s : St) : Prop :=
  ∀ i, i < s.heap.length → s.ps (s.heap.getD i 0) hid = some i

instance (hid : Nat) (s : St) : Decidable (posConsistent hid s) :=
  inferInstanceAs (Decidable (∀ i, i < s.heap.length → _ = _))

/-- `Heap._siftdown(sp, pos, newitem)`: walk toward the root moving
parents down (updating their positions) until `newitem` fits, then store
it and set its position. -/
def siftdownGo (m : Bool) (val : Nat → Int) (hid sp : Nat) :
    Nat → Nat → Nat → St → St
  | 0, pos, newitem, s =>
    setpos hid newitem (some pos) { s with heap := s.heap.set pos newitem }
  | fuel + 1, pos, newitem, s =>
    if sp < pos then
      if elt m val newitem (s.heap.getD (parent pos) 0) then
        siftdownGo m val hid sp fuel (parent pos) newitem
          (setpos hid (s.heap.getD (parent pos) 0) (some pos)
            { s with heap := s.heap.set pos (s.heap.getD (parent pos) 0) })
      else
        setpos hid newitem (some pos) { s with heap := s.heap.set pos newitem }
    else
      setpos hid newitem (some pos) { s with heap := s.heap.set pos newitem }

def siftdown (m : Bool) (val : Nat → Int) (hid sp pos newitem : Nat)
    (s : St) : St :=
  siftdownGo m val hid sp pos pos newitem s

theorem siftdownGo_fuel (m : Bool) (val : Nat → Int) (hid sp : Nat) :
    ∀ f1 f2 pos newitem s, pos ≤ f1 → pos ≤ f2 →
      siftdownGo m val hid sp f1 pos newitem s
        = siftdownGo m val hid sp f2 pos newitem s := by
  intro f1
  induction f1 with
  | zero =>
    intro f2 pos newitem s h1 h2
    have hp : pos = 0 := by omega
    subst hp
    cases f2 with
    | zero => rfl
    | succ f2 => simp [siftdownGo]
  | succ f1 ih =>
    intro f2 pos newitem s h1 h2
    cases f2 with
    | zero =>
      have hp : pos = 0 := by omega
      subst hp
      simp [siftdownGo]
    | succ f2 =>
      simp only [siftdownGo]
      by_cases hsp : sp < pos
      · simp only [if_pos hsp]
        by_cases hm : elt m val newitem (s.heap.getD (parent pos) 0) = true
        · simp only [if_pos hm]
          have hpl : parent pos < pos := parent_lt (by omega)
          exact ih f2 (parent pos) newitem _ (by omega) (by omega)
        · simp only [if_neg hm]
      · simp only [if_neg hsp]

theorem siftdown_eq (m : Bool) (val : Nat → Int) (hid sp pos newitem : Nat)
    (s : St) :
    siftdown m val hid sp pos newitem s =
      if sp < pos then
        (if elt m val newitem (s.heap.getD (parent pos) 0) then
          siftdown m val hid sp (parent pos) newitem
            (setpos hid (s.heap.getD (parent pos) 0) (some pos)
              { s with heap := s.heap.set pos (s.heap.getD (parent pos) 0) })
        else
          setpos hid newitem (some pos) { s with heap := s.heap.set pos newitem })
      else
        setpos hid newitem (some pos) { s with heap := s.heap.set pos newitem } := by
  unfold siftdown
  cases pos with
  | zero =>
    have hsp : ¬ sp < 0 := by omega
    simp [siftdownGo, hsp]
  | succ k =>
    simp only [siftdownGo]
    by_cases hsp : sp < k + 1
    · simp only [if_pos hsp]
      by_cases hm : elt m val newitem (s.heap.getD (parent (k + 1)) 0) = true
      · simp only [if_pos hm]
        have hpl : parent (k + 1) < k + 1 := parent_lt (by omega)
        exact siftdownGo_fuel m val hid sp k (parent (k + 1)) (parent (k + 1))
          newitem _ (by omega) (by omega)
      · simp only [if_neg hm]
    · simp only [if_neg hsp]

/-- The while loop of `_siftup_min` / `_siftup_max`: move the winning
child up into the hole (updating its position), descend, repeat until the
hole is a leaf. -/
def siftupLoopGo (m : Bool) (val : Nat → Int) (hid : Nat) :
    Nat → Nat → St → Nat × St
  | 0, pos, s => (pos, s)
  | fuel + 1, pos, s =>
    if 2 * pos + 1 < s.heap.length then
      if 2 * pos + 2 < s.heap.length ∧
          elt m val (s.heap.getD (2 * pos + 2) 0) (s.heap.getD (2 * pos + 1) 0)
            = true then
        siftupLoopGo m val hid fuel (2 * pos + 2)
          (setpos hid (s.heap.getD (2 * pos + 2) 0) (some pos)
            { s with heap := s.heap.set pos (s.heap.getD (2 * pos + 2) 0) })
      else
        siftupLoopGo m val hid fuel (2 * pos + 1)
          (setpos hid (s.heap.getD (2 * pos + 1) 0) (some pos)
            { s with heap := s.heap.set pos (s.heap.getD (2 * pos + 1) 0) })
    else (pos, s)

def siftupLoop (m : Bool) (val : Nat → Int) (hid pos : Nat) (s : St) :
    Nat × St :=
  siftupLoopGo m val hid (s.heap.length - pos) pos s

theorem siftupLoopGo_fuel (m : Bool) (val : Nat → Int) (hid : Nat) :
    ∀ f1 f2 pos s, s.heap.length - pos ≤ f1 → s.heap.length - pos ≤ f2 →
      siftupLoopGo m val hid f1 pos s = siftupLoopGo m val hid f2 pos s := by
  intro f1
  induction f1 with
  | zero =>
    intro f2 pos s h1 h2
    have hng : ¬ 2 * pos + 1 < s.heap.length := by omega
    cases f2 with
    | zero => rfl
    | succ f2 => simp [siftupLoopGo, hng]
  | succ f1 ih =>
    intro f2 pos s h1 h2
    cases f2 with
    | zero =>
      have hng : ¬ 2 * pos + 1 < s.heap.length := by omega
      simp [siftupLoopGo, hng]
    | succ f2 =>
      simp only [siftupLoopGo]
      by_cases hg1 : 2 * pos + 1 < s.heap.length
      · simp only [if_pos hg1]
        by_cases hg2 : 2 * pos + 2 < s.heap.length ∧
            elt m val (s.heap.getD (2 * pos + 2) 0) (s.heap.getD (2 * pos + 1) 0)
              = true
        · simp only [if_pos hg2]
          exact ih f2 _ _ (by simp only [setpos, List.length_set]; omega)
            (by simp only [setpos, List.length_set]; omega)
        · simp only [if_neg hg2]
          exact ih f2 _ _ (by simp only [setpos, List.length_set]; omega)
            (by simp only [setpos, List.length_set]; omega)
      · simp only [if_neg hg1]

theorem siftupLoop_eq (m : Bool) (val : Nat → Int) (hid pos : Nat) (s : St) :
    siftupLoop m val hid pos s =
      if 2 * pos + 1 < s.heap.length then
        (if 2 * pos + 2 < s.heap.length ∧
            elt m val (s.heap.getD (2 * pos + 2) 0) (s.heap.getD (2 * pos + 1) 0)
              = true then
          siftupLoop m val hid (2 * pos + 2)
            (setpos hid (s.heap.getD (2 * pos + 2) 0) (some pos)
              { s with heap := s.heap.set pos (s.heap.getD (2 * pos + 2) 0) })
        else
          siftupLoop m val hid (2 * pos + 1)
            (setpos hid (s.heap.getD (2 * pos + 1) 0) (some pos)
              { s with heap := s.heap.set pos (s.heap.getD (2 * pos + 1) 0) }))
      else (pos, s) := by
  unfold siftupLoop
  cases hf : s.heap.length - pos with
  | zero =>
    have hng : ¬ 2 * pos + 1 < s.heap.length := by omega
    simp [siftupLoopGo, hng]
  | succ f =>
    simp only [siftupLoopGo]
    by_cases hg1 : 2 * pos + 1 < s.heap.length
    · simp only [if_pos hg1]
      by_cases hg2 : 2 * pos + 2 < s.heap.length ∧
          elt m val (s.heap.getD (2 * pos + 2) 0) (s.heap.getD (2 * pos + 1) 0)
            = true
      · simp only [if_pos hg2]
        exact siftupLoopGo_fuel m val hid f _ _ _
          (by simp only [setpos, List.length_set]; omega)
          (by simp only [setpos, List.length_set]; omega)
      · simp only [if_neg hg2]
        exact siftupLoopGo_fuel m val hid f _ _ _
          (by simp only [setpos, List.length_set]; omega)
          (by simp only [setpos, List.length_set]; omega)
    · simp only [if_neg hg1]

/-- `Heap._siftup_min(pos)` / `Heap._siftup_max(pos)`, also
`Heap._siftup_inplace(pos)`: the item already sits at `pos`. -/
def siftup_inplace (m : Bool) (val : Nat → Int) (hid pos : Nat) (s : St) :
    St :=
  let newitem := s.heap.getD pos 0
  let r := siftupLoop m val hid pos s
  siftdown m val hid pos r.1 newitem r.2

/-- `Heap._siftup(pos, item)`: store `item` at `pos` (with its position),
then sink in place. -/
def siftup (m : Bool) (val : Nat → Int) (hid pos item : Nat) (s : St) : St :=
  siftup_inplace m val hid pos
    (setpos hid item (some pos) { s with heap := s.heap.set pos item })

/-- `Heap.push(item)`: append, then rise from the new last index. -/
def push (m : Bool) (val : Nat → Int) (hid item : Nat) (s : St) : St :=
  let s1 : St := { s with heap := s.heap ++ [item] }
  siftdown m val hid 0 (s1.heap.length - 1) item s1

/-- Body of `Heap.pop()` on a non-empty heap: pop the last element; the
returned entry's position is cleared to absent just before returning. -/
def popCore (m : Bool) (val : Nat → Int) (hid : Nat) (s : St) : Nat × St :=
  let lastelt := s.heap.getD (s.heap.length - 1) 0
  let s1 : St := { s with heap := s.heap.dropLast }
  if s1.heap.length = 0 then
    (lastelt, setpos hid lastelt none s1)
  else
    let ret := s1.heap.getD 0 0
    (ret, setpos hid ret none (siftup m val hid 0 lastelt s1))

/-- `Heap.pop()`; `none` is the `IndexError` on an empty heap. -/
def pop (m : Bool) (val : Nat → Int) (hid : Nat) (s : St) :
    Option (Nat × St) :=
  if s.heap.length = 0 then none else some (popCore m val hid s)

/-- Body of `Heap.remove(item)` once `pos` is known and the
`heap[pos] is item` assertion passed: clear `item`'s position, pop the
last element, and when the freed slot is interior repair with the
one-test dispatch, written branch-for-branch as in the source. -/
def removeCore (m : Bool) (val : Nat → Int) (hid p item : Nat) (s : St) :
    St :=
  let s0 := setpos hid item none s
  let lastelt := s0.heap.getD (s0.heap.length - 1) 0
  let s1 : St := { s0 with heap := s0.heap.dropLast }
  if p < s1.heap.length then
    if m then
      if elt m val lastelt item then siftdown m val hid 0 p lastelt s1
      else siftup m val hid p lastelt s1
    else
      if elt m val lastelt item then siftup m val hid p lastelt s1
      else siftdown m val hid 0 p lastelt s1
  else s1

/-- `Heap.remove(item)`: `item.getpos(self)` (KeyError when absent gives
`none`), the `heap[pos] is item` assertion (failure gives `none`, as does
an out-of-range position), then the removal body. -/
def remove (m : Bool) (val : Nat → Int) (hid item : Nat) (s : St) :
    Option St :=
  match s.ps item hid with
  | none => none
  | some p =>
    if p < s.heap.length ∧ s.heap.getD p 0 = item then
      some (removeCore m val hid p item s)
    else none

/-- Body of `Heap.replace(item)` on a non-empty heap: remember the root,
clear its position, sink `item` from index 0; no ordering test against the
old root is made. -/
def replaceCore (m : Bool) (val : Nat → Int) (hid item : Nat) (s : St) :
    Nat × St :=
  let ret := s.heap.getD 0 0
  let s1 := setpos hid ret none s
  (ret, siftup m val hid 0 item s1)

/-- `Heap.replace(item)`; `none` is the `IndexError` on an empty heap. -/
def replace (m : Bool) (val : Nat → Int) (hid item : Nat) (s : St) :
    Option (Nat × St) :=
  if s.heap.length = 0 then none else some (replaceCore m val hid item s)

/-- `Heap.pushpop(item)`: on a non-empty heap test
`heap[0] < item` (min) / `heap[0] > item` (max) and replace when the root
would be displaced; otherwise return `item` unchanged, never inserting
it. -/
def pushpop (m : Bool) (val : Nat → Int) (hid item : Nat) (s : St) :
    Nat × St :=
  if 0 < s.heap.length then
    if elt m val (s.heap.getD 0 0) item then replaceCore m val hid item s
    else (item, s)
  else (item, s)

/-- Body of `Heap.fix_after_delta(item, is_smaller)` once `pos` is known:
rise when `is_smaller == self.is_min`, otherwise sink in place. -/
def fixCore (m : Bool) (val : Nat → Int) (hid p item : Nat)
    (is_smaller : Bool) (s : St) : St :=
  if is_smaller = m then siftdown m val hid 0 p item s
  else siftup_inplace m val hid p s

/-- `Heap.fix_after_delta(item, is_smaller)`: position lookup and
`heap[pos] is item` assertion, then the dispatch. -/
def fix_after_delta (m : Bool) (val : Nat → Int) (hid item : Nat)
    (is_smaller : Bool) (s : St) : Option St :=
  match s.ps item hid with
  | none => none
  | some p =>
    if p < s.heap.length ∧ s.heap.getD p 0 = item then
      some (fixCore m val hid p item is_smaller s)
    else none

/-- `Heap.decreased(item)`. -/
def decreased (m : Bool) (val : Nat → Int) (hid item : Nat) (s : St) :
    Option St :=
  fix_after_delta m val hid item true s

/-- `Heap.increased(item)`. -/
def increased (m : Bool) (val : Nat → Int) (hid item : Nat) (s : St) :
    Option St :=
  fix_after_delta m val hid item false s

/-- `for e in self.heap: e.setpos(self, -1)` — clear the old entries. -/
def clearAll (hid : Nat) (es : List Nat) (s : St) : St :=
  es.foldl (fun t e => setpos hid e none t) s

/-- `for i in range(n): x[i].setpos(self, i)` — initial positions. -/
def setIdx (hid : Nat) (x : List Nat) (s : St) : St :=
  (List.range x.length).foldl (fun t i => setpos hid (x.getD i 0) (some i) t) s

/-- `for i in reversed(range(n // 2)): sifter(i)`. -/
def repairDown (m : Bool) (val : Nat → Int) (hid : Nat) : Nat → St → St
  | 0, s => s
  | i + 1, s => repairDown m val hid i (siftup_inplace m val hid i s)

/-- `Heap.heapify(x)`: clear the old entries' positions, install `x`, set
each element's position to its index, then repair bottom-up. -/
def heapify (m : Bool) (val : Nat → Int) (hid : Nat) (x : List Nat)
    (s : St) : St :=
  let s1 := clearAll hid s.heap s
  let s2 : St := { s1 with heap := x }
  let s3 := setIdx hid x s2
  repairDown m val hid (x.length / 2) s3

/-- Fuelled "pop until empty". -/
def drainGo (m : Bool) (val : Nat → Int) (hid : Nat) :
    Nat → St → List Nat × St
  | 0, s => ([], s)
  | fuel + 1, s =>
    if s.heap.length = 0 then ([], s)
    else
      let r := popCore m val hid s
      let rest := drainGo m val hid fuel r.2
      (r.1 :: rest.1, rest.2)

/-- Repeatedly `pop()` until the heap is empty. -/
def drain (m : Bool) (val : Nat → Int) (hid : Nat) (s : St) :
    List Nat × St :=
  drainGo m val hid s.heap.length s

/-! ### Projections: the backing list evolves exactly as the list-level
functions describe (position bookkeeping never feeds back into the list
except through the explicitly looked-up positions). -/

theorem setpos_heap (hid e : Nat) (p : Option Nat) (s : St) :
    (setpos hid e p s).heap = s.heap := rfl

theorem siftdown_heap (m : Bool) (val : Nat → Int) (hid sp newitem : Nat) :
    ∀ pos s, (siftdown m val hid sp pos newitem s).heap
      = siftdownL m val sp pos newitem s.heap := by
  intro pos
  induction pos using Nat.strong_induction_on with
  | _ pos ih =>
    intro s
    rw [siftdown_eq, siftdownL_eq]
    by_cases hsp : sp < pos
    · simp only [if_pos hsp]
      split
      · rw [ih (parent pos) (parent_lt (by omega))]
        rfl
      · rfl
    · simp only [if_neg hsp]
      rfl

theorem siftupLoop_proj (m : Bool) (val : Nat → Int) (hid : Nat) :
    ∀ fuel pos s, s.heap.length - pos ≤ fuel →
      (siftupLoop m val hid pos s).1 = (siftupLoopL m val pos s.heap).1 ∧
      (siftupLoop m val hid pos s).2.heap = (siftupLoopL m val pos s.heap).2 := by
  intro fuel
  induction fuel with
  | zero =>
    intro pos s h
    rw [siftupLoop_eq, siftupLoopL_eq]
    split
    · omega
    · exact ⟨rfl, rfl⟩
  | succ fuel ih =>
    intro pos s h
    rw [siftupLoop_eq, siftupLoopL_eq]
    split
    · split
      · exact ih _ _ (by simp only [setpos, List.length_set]; omega)
      · exact ih _ _ (by simp only [setpos, List.length_set]; omega)
    · exact ⟨rfl, rfl⟩

theorem siftup_inplace_heap (m : Bool) (val : Nat → Int) (hid pos : Nat)
    (s : St) : (siftup_inplace m val hid pos s).heap
      = siftupInplaceL m val pos s.heap := by
  unfold siftup_inplace siftupInplaceL
  have hp := siftupLoop_proj m val hid (s.heap.length - pos) pos s (Nat.le_refl _)
  rw [siftdown_heap, hp.1, hp.2]

theorem siftup_heap (m : Bool) (val : Nat → Int) (hid pos item : Nat)
    (s : St) : (siftup m val hid pos item s).heap
      = siftupL m val pos item s.heap := by
  unfold siftup siftupL
  rw [siftup_inplace_heap]
  rfl

theorem push_heap (m : Bool) (val : Nat → Int) (hid item : Nat) (s : St) :
    (push m val hid item s).heap = pushL m val item s.heap := by
  unfold push pushL
  rw [siftdown_heap]

theorem popCore_proj (m : Bool) (val : Nat → Int) (hid : Nat) (s : St) :
    (popCore m val hid s).1 = (popCoreL m val s.heap).1 ∧
    (popCore m val hid s).2.heap = (popCoreL m val s.heap).2 := by
  unfold popCore popCoreL
  by_cases h1 : s.heap.dropLast.length = 0
  · simp only [if_pos h1]
    exact ⟨by trivial, by trivial⟩
  · simp only [if_neg h1]
    refine ⟨by trivial, ?_⟩
    rw [setpos_heap, siftup_heap]

theorem removeCore_heap (m : Bool) (val : Nat → Int) (hid p item : Nat)
    (s : St) : (removeCore m val hid p item s).heap
      = removeCoreL m val p item s.heap := by
  unfold removeCore removeCoreL
  dsimp only [setpos_heap]
  split
  · split
    · split
      · rw [siftdown_heap]
      · rw [siftup_heap]
    · split
      · rw [siftup_heap]
      · rw [siftdown_heap]
  · rfl

theorem replaceCore_proj (m : Bool) (val : Nat → Int) (hid item : Nat)
    (s : St) :
    (replaceCore m val hid item s).1 = (replaceCoreL m val item s.heap).1 ∧
    (replaceCore m val hid item s).2.heap = (replaceCoreL m val item s.heap).2 := by
  unfold replaceCore replaceCoreL
  refine ⟨by trivial, ?_⟩
  rw [siftup_heap, setpos_heap]

theorem pushpop_proj (m : Bool) (val : Nat → Int) (hid item : Nat) (s : St) :
    (pushpop m val hid item s).1 = (pushpopL m val item s.heap).1 ∧
    (pushpop m val hid item s).2.heap = (pushpopL m val item s.heap).2 := by
  unfold pushpop pushpopL
  by_cases h0 : 0 < s.heap.length
  · simp only [if_pos h0]
    split
    · exact replaceCore_proj m val hid item s
    · exact ⟨by trivial, by trivial⟩
  · simp only [if_neg h0]
    exact ⟨by trivial, by trivial⟩

theorem fixCore_heap (m : Bool) (val : Nat → Int) (hid p item : Nat)
    (is_smaller : Bool) (s : St) :
    (fixCore m val hid p item is_smaller s).heap
      = fixCoreL m val p item is_smaller s.heap := by
  unfold fixCore fixCoreL
  split
  · rw [siftdown_heap]
  · rw [siftup_inplace_heap]

theorem clearAll_heap (hid : Nat) :
    ∀ es s, (clearAll hid es s).heap = s.heap := by
  intro es
  induction es with
  | nil => intro s; rfl
  | cons e t ih =>
    intro s
    show (clearAll hid t (setpos hid e none s)).heap = s.heap
    rw [ih]
    rfl

theorem foldl_setpos_heap (hid : Nat) (x : List Nat) :
    ∀ (idxs : List Nat) (s : St),
      (idxs.foldl (fun t i => setpos hid (x.getD i 0) (some i) t) s).heap
        = s.heap := by
  intro idxs
  induction idxs with
  | nil => intro s; rfl
  | cons i t ih =>
    intro s
    show (t.foldl _ (setpos hid (x.getD i 0) (some i) s)).heap = s.heap
    rw [ih]
    rfl

theorem setIdx_heap (hid : Nat) (x : List Nat) (s : St) :
    (setIdx hid x s).heap = s.heap :=
  foldl_setpos_heap hid x (List.range x.length) s

theorem repairDown_heap (m : Bool) (val : Nat → Int) (hid : Nat) :
    ∀ i s, (repairDown m val hid i s).heap = repairDownL m val i s.heap := by
  intro i
  induction i with
  | zero => intro s; rfl
  | succ i ih =>
    intro s
    show (repairDown m val hid i (siftup_inplace m val hid i s)).heap = _
    rw [ih, siftup_inplace_heap]
    rfl

theorem heapify_heap (m : Bool) (val : Nat → Int) (hid : Nat) (x : List Nat)
    (s : St) : (heapify m val hid x s).heap = heapifyL m val x := by
  unfold heapify heapifyL
  rw [repairDown_heap, setIdx_heap]

theorem drainGo_proj (m : Bool) (val : Nat → Int) (hid : Nat) :
    ∀ fuel s, (drainGo m val hid fuel s).1 = (drainGoL m val fuel s.heap).1 ∧
      (drainGo m val hid fuel s).2.heap = (drainGoL m val fuel s.heap).2 := by
  intro fuel
  induction fuel with
  | zero => intro s; exact ⟨rfl, rfl⟩
  | succ fuel ih =>
    intro s
    unfold drainGo drainGoL
    by_cases h0 : s.heap.length = 0
    · simp only [if_pos h0]
      exact ⟨by trivial, by trivial⟩
    · simp only [if_neg h0]
      have hp := popCore_proj m val hid s
      have hrest := ih (popCore m val hid s).2
      rw [hp.2] at hrest
      rw [hp.1, hrest.1, hrest.2]
      exact ⟨rfl, rfl⟩

/-! ### Position-store lemmas -/

theorem setpos_ps_same (hid e : Nat) (p : Option Nat) (s : St) :
    (setpos hid e p s).ps e hid = p := by
  simp [setpos]

theorem setpos_ps_ne_entry {e2 e : Nat} (hid : Nat) (p : Option Nat) (s : St)
    (h2 : Nat) (hne : e2 ≠ e) : (setpos hid e p s).ps e2 h2 = s.ps e2 h2 := by
  simp [setpos, hne]

theorem setpos_ps_ne_heap {h2 hid : Nat} (e : Nat) (p : Option Nat) (s : St)
    (e2 : Nat) (hne : h2 ≠ hid) : (setpos hid e p s).ps e2 h2 = s.ps e2 h2 := by
  simp [setpos, hne]

theorem nodup_set_of_not_mem {l : List Nat} {a : Nat} (hn : l.Nodup)
    (ha : a ∉ l) {i : Nat} (hi : i < l.length) : (l.set i a).Nodup := by
  rw [List.nodup_iff_count_le_one]
  intro x
  have hc := count_set (l := l) (i := i) a x hi
  have h1 := List.nodup_iff_count_le_one.mp hn x
  have hb1 : (if l.getD i 0 = x then 1 else 0) ≤ 1 := by
    split <;> omega
  by_cases hx : x = a
  · subst hx
    have h0 : l.count x = 0 := List.count_eq_zero.mpr ha
    simp only [if_pos rfl, eq_self_iff_true, if_true] at hc
    omega
  · have hxa : ¬ (a = x) := fun he => hx he.symm
    simp only [if_neg hxa] at hc
    omega

/-- Overwriting the (unique) occurrence of `l[i]` with a different entry
removes it from the list. -/
theorem set_not_mem_self {l : List Nat} (hn : l.Nodup) {i : Nat}
    (hi : i < l.length) {a : Nat} (ha : a ≠ l.getD i 0) :
    l.getD i 0 ∉ l.set i a := by
  rw [← List.count_eq_zero (l := l.set i a)]
  have hc := count_set (l := l) (i := i) a (l.getD i 0) hi
  have h1 : l.count (l.getD i 0) = 1 :=
    List.count_eq_one_of_mem hn (getD_mem hi)
  simp only [if_neg ha, eq_self_iff_true, if_true] at hc
  omega

/-- Mutating another heap's entries never touches this heap's keys:
`_siftdown` only calls `setpos` with its own heap identity. -/
theorem siftdown_ps_hfr (m : Bool) (val : Nat → Int) (hid sp newitem : Nat) :
    ∀ pos s e2 h2, h2 ≠ hid →
      (siftdown m val hid sp pos newitem s).ps e2 h2 = s.ps e2 h2 := by
  intro pos
  induction pos using Nat.strong_induction_on with
  | _ pos ih =>
    intro s e2 h2 hne
    rw [siftdown_eq]
    by_cases hsp : sp < pos
    · simp only [if_pos hsp]
      split
      · rw [ih (parent pos) (parent_lt (by omega)) _ e2 h2 hne]
        exact setpos_ps_ne_heap _ _ _ _ hne
      · exact setpos_ps_ne_heap _ _ _ _ hne
    · simp only [if_neg hsp]
      exact setpos_ps_ne_heap _ _ _ _ hne

theorem siftupLoop_ps_hfr (m : Bool) (val : Nat → Int) (hid : Nat) :
    ∀ fuel pos s e2 h2, s.heap.length - pos ≤ fuel → h2 ≠ hid →
      (siftupLoop m val hid pos s).2.ps e2 h2 = s.ps e2 h2 := by
  intro fuel
  induction fuel with
  | zero =>
    intro pos s e2 h2 h hne
    rw [siftupLoop_eq]
    split
    · omega
    · rfl
  | succ fuel ih =>
    intro pos s e2 h2 h hne
    rw [siftupLoop_eq]
    split
    · split
      · rw [ih _ _ e2 h2 (by simp only [setpos, List.length_set]; omega) hne]
        exact setpos_ps_ne_heap _ _ _ _ hne
      · rw [ih _ _ e2 h2 (by simp only [setpos, List.length_set]; omega) hne]
        exact setpos_ps_ne_heap _ _ _ _ hne
    · rfl

theorem siftup_inplace_ps_hfr (m : Bool) (val : Nat → Int) (hid pos : Nat)
    (s : St) (e2 h2 : Nat) (hne : h2 ≠ hid) :
    (siftup_inplace m val hid pos s).ps e2 h2 = s.ps e2 h2 := by
  unfold siftup_inplace
  rw [siftdown_ps_hfr m val hid pos _ _ _ e2 h2 hne]
  exact siftupLoop_ps_hfr m val hid (s.heap.length - pos) pos s e2 h2
    (Nat.le_refl _) hne

theorem siftup_ps_hfr (m : Bool) (val : Nat → Int) (hid pos item : Nat)
    (s : St) (e2 h2 : Nat) (hne : h2 ≠ hid) :
    (siftup m val hid pos item s).ps e2 h2 = s.ps e2 h2 := by
  unfold siftup
  rw [siftup_inplace_ps_hfr m val hid pos _ e2 h2 hne]
  exact setpos_ps_ne_heap _ _ _ _ hne

theorem push_ps_hfr (m : Bool) (val : Nat → Int) (hid item : Nat) (s : St)
    (e2 h2 : Nat) (hne : h2 ≠ hid) :
    (push m val hid item s).ps e2 h2 = s.ps e2 h2 := by
  unfold push
  exact siftdown_ps_hfr m val hid 0 _ _ _ e2 h2 hne

theorem popCore_ps_hfr (m : Bool) (val : Nat → Int) (hid : Nat) (s : St)
    (e2 h2 : Nat) (hne : h2 ≠ hid) :
    (popCore m val hid s).2.ps e2 h2 = s.ps e2 h2 := by
  unfold popCore
  by_cases h1 : s.heap.dropLast.length = 0
  · simp only [if_pos h1]
    exact setpos_ps_ne_heap _ _ _ _ hne
  · simp only [if_neg h1]
    rw [setpos_ps_ne_heap _ _ _ _ hne]
    exact siftup_ps_hfr m val hid 0 _ _ e2 h2 hne

theorem removeCore_ps_hfr (m : Bool) (val : Nat → Int) (hid p item : Nat)
    (s : St) (e2 h2 : Nat) (hne : h2 ≠ hid) :
    (removeCore m val hid p item s).ps e2 h2 = s.ps e2 h2 := by
  unfold removeCore
  simp only [setpos_heap]
  by_cases h1 : p < s.heap.dropLast.length
  · simp only [if_pos h1]
    rcases Bool.eq_false_or_eq_true m with hm | hm <;> subst hm <;>
      [skip; skip] <;> first
    | (simp only [eq_self_iff_true, if_true, Bool.false_eq_true, if_false]
       by_cases he : elt true val (s.heap.getD (s.heap.length - 1) 0) item = true
       · simp only [if_pos he]
         rw [siftdown_ps_hfr true val hid 0 _ _ _ e2 h2 hne]
         exact setpos_ps_ne_heap _ _ _ _ hne
       · simp only [if_neg he]
         rw [siftup_ps_hfr true val hid _ _ _ e2 h2 hne]
         exact setpos_ps_ne_heap _ _ _ _ hne)
    | (simp only [eq_self_iff_true, if_true, Bool.false_eq_true, if_false]
       by_cases he : elt false val (s.heap.getD (s.heap.length - 1) 0) item = true
       · simp only [if_pos he]
         rw [siftup_ps_hfr false val hid _ _ _ e2 h2 hne]
         exact setpos_ps_ne_heap _ _ _ _ hne
       · simp only [if_neg he]
         rw [siftdown_ps_hfr false val hid 0 _ _ _ e2 h2 hne]
         exact setpos_ps_ne_heap _ _ _ _ hne)
  · simp only [if_neg h1]
    exact setpos_ps_ne_heap _ _ _ _ hne

theorem replaceCore_ps_hfr (m : Bool) (val : Nat → Int) (hid item : Nat)
    (s : St) (e2 h2 : Nat) (hne : h2 ≠ hid) :
    (replaceCore m val hid item s).2.ps e2 h2 = s.ps e2 h2 := by
  unfold replaceCore
  rw [siftup_ps_hfr m val hid 0 _ _ e2 h2 hne]
  exact setpos_ps_ne_heap _ _ _ _ hne

theorem fixCore_ps_hfr (m : Bool) (val : Nat → Int) (hid p item : Nat)
    (is_smaller : Bool) (s : St) (e2 h2 : Nat) (hne : h2 ≠ hid) :
    (fixCore m val hid p item is_smaller s).ps e2 h2 = s.ps e2 h2 := by
  unfold fixCore
  split
  · exact siftdown_ps_hfr m val hid 0 _ _ _ e2 h2 hne
  · exact siftup_inplace_ps_hfr m val hid p _ e2 h2 hne

theorem siftdownL_not_mem (m : Bool) (val : Nat → Int) (sp newitem e : Nat) :
    ∀ pos l, pos < l.length → e ∉ l → e ≠ newitem →
      e ∉ siftdownL m val sp pos newitem l := by
  intro pos
  induction pos using Nat.strong_induction_on with
  | _ pos ih =>
    intro l hpos hmem hni
    rw [siftdownL_eq]
    by_cases hsp : sp < pos
    · simp only [if_pos hsp]
      have hpl : parent pos < pos := parent_lt (by omega)
      split
      · refine ih (parent pos) hpl _ (by rw [List.length_set]; omega) ?_ hni
        intro hin
        rcases mem_of_mem_set hin with h | h
        · exact hmem h
        · exact hmem (h ▸ getD_mem (by omega))
      · intro hin
        rcases mem_of_mem_set hin with h | h
        · exact hmem h
        · exact hni h
    · simp only [if_neg hsp]
      intro hin
      rcases mem_of_mem_set hin with h | h
      · exact hmem h
      · exact hni h

theorem siftupLoopL_not_mem (m : Bool) (val : Nat → Int) (e : Nat) :
    ∀ fuel pos l, l.length - pos ≤ fuel → e ∉ l →
      e ∉ (siftupLoopL m val pos l).2 := by
  intro fuel
  induction fuel with
  | zero =>
    intro pos l h hmem
    rw [siftupLoopL_eq]
    split
    · omega
    · exact hmem
  | succ fuel ih =>
    intro pos l h hmem
    rw [siftupLoopL_eq]
    split
    · split
      · refine ih _ _ (by simp only [List.length_set]; omega) ?_
        intro hin
        rcases mem_of_mem_set hin with h' | h'
        · exact hmem h'
        · exact hmem (h' ▸ getD_mem (by omega))
      · refine ih _ _ (by simp only [List.length_set]; omega) ?_
        intro hin
        rcases mem_of_mem_set hin with h' | h'
        · exact hmem h'
        · exact hmem (h' ▸ getD_mem (by omega))
    · exact hmem

/-- `_siftdown` calls `setpos` only on entries of the heap and on
`newitem`: any other entry's position state is untouched (for every heap
identity). -/
theorem siftdown_ps_entry (m : Bool) (val : Nat → Int) (hid sp newitem e2 : Nat) :
    ∀ pos s, pos < s.heap.length → e2 ∉ s.heap → e2 ≠ newitem → ∀ h2,
      (siftdown m val hid sp pos newitem s).ps e2 h2 = s.ps e2 h2 := by
  intro pos
  induction pos using Nat.strong_induction_on with
  | _ pos ih =>
    intro s hpos hmem hni h2
    rw [siftdown_eq]
    by_cases hsp : sp < pos
    · simp only [if_pos hsp]
      have hpl : parent pos < pos := parent_lt (by omega)
      split
      · rw [ih (parent pos) hpl _ (by simp only [setpos, List.length_set]; omega)
            (by
              intro hin
              rcases mem_of_mem_set hin with h | h
              · exact hmem h
              · exact hmem (h ▸ getD_mem (by omega))) hni h2]
        exact setpos_ps_ne_entry hid _ _ _
          (fun he => hmem (he ▸ getD_mem (by omega)))
      · exact setpos_ps_ne_entry hid _ _ _ hni
    · simp only [if_neg hsp]
      exact setpos_ps_ne_entry hid _ _ _ hni

theorem siftupLoop_ps_entry (m : Bool) (val : Nat → Int) (hid e2 : Nat) :
    ∀ fuel pos s, s.heap.length - pos ≤ fuel → e2 ∉ s.heap → ∀ h2,
      (siftupLoop m val hid pos s).2.ps e2 h2 = s.ps e2 h2 := by
  intro fuel
  induction fuel with
  | zero =>
    intro pos s h hmem h2
    rw [siftupLoop_eq]
    split
    · omega
    · rfl
  | succ fuel ih =>
    intro pos s h hmem h2
    rw [siftupLoop_eq]
    split
    · split
      · rw [ih _ _ (by simp only [setpos, List.length_set]; omega)
            (by
              intro hin
              rcases mem_of_mem_set hin with h' | h'
              · exact hmem h'
              · exact hmem (h' ▸ getD_mem (by omega))) h2]
        exact setpos_ps_ne_entry hid _ _ _
          (fun he => hmem (he ▸ getD_mem (by omega)))
      · rw [ih _ _ (by simp only [setpos, List.length_set]; omega)
            (by
              intro hin
              rcases mem_of_mem_set hin with h' | h'
              · exact hmem h'
              · exact hmem (h' ▸ getD_mem (by omega))) h2]
        exact setpos_ps_ne_entry hid _ _ _
          (fun he => hmem (he ▸ getD_mem (by omega)))
    · rfl

theorem siftup_inplace_ps_entry (m : Bool) (val : Nat → Int) (hid pos e2 : Nat)
    (s : St) (hpos : pos < s.heap.length) (hmem : e2 ∉ s.heap) (h2 : Nat) :
    (siftup_inplace m val hid pos s).ps e2 h2 = s.ps e2 h2 := by
  unfold siftup_inplace
  have hproj := siftupLoop_proj m val hid (s.heap.length - pos) pos s (Nat.le_refl _)
  have hstruct := siftupLoopL_struct m val (s.heap.length - pos) pos s.heap
    (Nat.le_refl _) hpos
  have hlenf : (siftupLoopL m val pos s.heap).2.length = s.heap.length :=
    siftupLoopL_len m val pos s.heap
  rw [siftdown_ps_entry m val hid pos _ e2 _ _
      (by rw [hproj.2, hlenf, hproj.1]; exact hstruct.1)
      (by
        rw [hproj.2]
        exact siftupLoopL_not_mem m val e2 (s.heap.length - pos) pos s.heap
          (Nat.le_refl _) hmem)
      (fun he => hmem (he ▸ getD_mem hpos)) h2]
  exact siftupLoop_ps_entry m val hid e2 (s.heap.length - pos) pos s
    (Nat.le_refl _) hmem h2

theorem siftup_ps_entry (m : Bool) (val : Nat → Int) (hid pos item e2 : Nat)
    (s : St) (hpos : pos < s.heap.length) (hni : e2 ≠ item)
    (hmem : e2 ∉ s.heap.set pos item) (h2 : Nat) :
    (siftup m val hid pos item s).ps e2 h2 = s.ps e2 h2 := by
  unfold siftup
  rw [siftup_inplace_ps_entry m val hid pos e2 _
      (by simp only [setpos, List.length_set]; exact hpos) hmem h2]
  exact setpos_ps_ne_entry hid _ _ _ hni

/-- Storing `newitem` at the hole `pos` (list write plus `setpos`)
restores full position consistency from consistency-except-the-hole. -/
theorem setpos_store_posC (hid pos newitem : Nat) (s : St)
    (hpos : pos < s.heap.length) (hnd : (s.heap.set pos newitem).Nodup)
    (hpre : ∀ j, j < s.heap.length → j ≠ pos →
      s.ps (s.heap.getD j 0) hid = some j) :
    posConsistent hid
      (setpos hid newitem (some pos) { s with heap := s.heap.set pos newitem }) := by
  intro j hj
  have hlen : (setpos hid newitem (some pos)
      { s with heap := s.heap.set pos newitem }).heap.length = s.heap.length :=
    List.length_set _ _ _
  have hj2 : j < s.heap.length := by omega
  by_cases hjp : j = pos
  · subst hjp
    have he : (setpos hid newitem (some j)
        { s with heap := s.heap.set j newitem }).heap.getD j 0 = newitem :=
      getD_set_self newitem hj2
    rw [he]
    exact setpos_ps_same hid newitem (some j) _
  · have he : (setpos hid newitem (some pos)
        { s with heap := s.heap.set pos newitem }).heap.getD j 0
        = s.heap.getD j 0 :=
      getD_set_ne _ _ (fun heq => hjp heq.symm)
    have hne : s.heap.getD j 0 ≠ newitem := by
      have hd := nodup_getD_ne hnd (i := j) (j := pos)
        (by rw [List.length_set]; omega) (by rw [List.length_set]; omega) hjp
      rwa [getD_set_ne _ _ (fun heq => hjp heq.symm), getD_set_self newitem hpos]
        at hd
    rw [he, setpos_ps_ne_entry hid _ _ _ hne]
    exact hpre j hj2 hjp

/-- Moving the entry at `q` into the hole at `pos` (one step of either
sift loop) keeps every slot except the new hole `q` consistent. -/
theorem setpos_move_pre (hid pos q newitem : Nat) (s : St)
    (hpos : pos < s.heap.length) (hq : q < s.heap.length) (hqp : q ≠ pos)
    (hnd : (s.heap.set pos newitem).Nodup)
    (hpre : ∀ j, j < s.heap.length → j ≠ pos →
      s.ps (s.heap.getD j 0) hid = some j) :
    ∀ j, j < s.heap.length → j ≠ q →
      (setpos hid (s.heap.getD q 0) (some pos)
        { s with heap := s.heap.set pos (s.heap.getD q 0) }).ps
        ((s.heap.set pos (s.heap.getD q 0)).getD j 0) hid = some j := by
  intro j hj hjq
  by_cases hjp : j = pos
  · subst hjp
    rw [getD_set_self _ hpos]
    exact setpos_ps_same hid _ (some j) _
  · rw [getD_set_ne _ _ (fun heq => hjp heq.symm)]
    have hne : s.heap.getD j 0 ≠ s.heap.getD q 0 := by
      have hd := nodup_getD_ne hnd (i := j) (j := q)
        (by rw [List.length_set]; omega) (by rw [List.length_set]; omega) hjq
      rwa [getD_set_ne _ _ (fun heq => hjp heq.symm),
          getD_set_ne _ _ (by omega)] at hd
    rw [setpos_ps_ne_entry hid _ _ _ hne]
    exact hpre j hj hjp

/-- `_siftdown` restores position consistency: before the call every slot
but the hole is consistent; afterwards every slot is. -/
theorem siftdown_posC (m : Bool) (val : Nat → Int) (hid sp newitem : Nat) :
    ∀ pos s, pos < s.heap.length → (s.heap.set pos newitem).Nodup →
      (∀ j, j < s.heap.length → j ≠ pos →
        s.ps (s.heap.getD j 0) hid = some j) →
      posConsistent hid (siftdown m val hid sp pos newitem s) := by
  intro pos
  induction pos using Nat.strong_induction_on with
  | _ pos ih =>
    intro s hpos hnd hpre
    rw [siftdown_eq]
    by_cases hsp : sp < pos
    · simp only [if_pos hsp]
      by_cases hm : elt m val newitem (s.heap.getD (parent pos) 0) = true
      · simp only [if_pos hm]
        have hpl : parent pos < pos := parent_lt (by omega)
        apply ih (parent pos) hpl
        · show parent pos < (s.heap.set pos (s.heap.getD (parent pos) 0)).length
          rw [List.length_set]
          omega
        · show (((s.heap.set pos (s.heap.getD (parent pos) 0))).set
            (parent pos) newitem).Nodup
          exact ((set_set_perm newitem hpos (by omega) (by omega)).nodup_iff).mpr hnd
        · intro j hj hjne
          have hj2 : j < s.heap.length := by
            have : (setpos hid (s.heap.getD (parent pos) 0) (some pos)
                { s with heap := s.heap.set pos (s.heap.getD (parent pos) 0)
                }).heap.length = s.heap.length := List.length_set _ _ _
            omega
          exact setpos_move_pre hid pos (parent pos) newitem s hpos (by omega)
            (by omega) hnd hpre j hj2 hjne
      · simp only [if_neg hm]
        exact setpos_store_posC hid pos newitem s hpos hnd hpre
    · simp only [if_neg hsp]
      exact setpos_store_posC hid pos newitem s hpos hnd hpre

/-- The bubbling loop keeps every slot but the hole consistent, and keeps
the virtual list (hole replaced by `newitem`) duplicate-free. -/
theorem siftupLoop_posC (m : Bool) (val : Nat → Int) (hid newitem : Nat) :
    ∀ fuel pos s, s.heap.length - pos ≤ fuel → pos < s.heap.length →
      (s.heap.set pos newitem).Nodup →
      (∀ j, j < s.heap.length → j ≠ pos →
        s.ps (s.heap.getD j 0) hid = some j) →
      (∀ j, j < (siftupLoop m val hid pos s).2.heap.length →
        j ≠ (siftupLoop m val hid pos s).1 →
        (siftupLoop m val hid pos s).2.ps
          ((siftupLoop m val hid pos s).2.heap.getD j 0) hid = some j) ∧
      ((siftupLoop m val hid pos s).2.heap.set (siftupLoop m val hid pos s).1
        newitem).Nodup := by
  intro fuel
  induction fuel with
  | zero =>
    intro pos s h hpos hnd hpre
    rw [siftupLoop_eq]
    split
    · omega
    · exact ⟨hpre, hnd⟩
  | succ fuel ih =>
    intro pos s h hpos hnd hpre
    rw [siftupLoop_eq]
    by_cases hch : 2 * pos + 1 < s.heap.length
    · simp only [if_pos hch]
      by_cases h2 : 2 * pos + 2 < s.heap.length ∧
          elt m val (s.heap.getD (2 * pos + 2) 0) (s.heap.getD (2 * pos + 1) 0)
            = true
      · simp only [if_pos h2]
        apply ih (2 * pos + 2)
        · show (s.heap.set pos (s.heap.getD (2 * pos + 2) 0)).length
            - (2 * pos + 2) ≤ fuel
          rw [List.length_set]
          omega
        · show 2 * pos + 2 < (s.heap.set pos (s.heap.getD (2 * pos + 2) 0)).length
          rw [List.length_set]
          omega
        · show ((s.heap.set pos (s.heap.getD (2 * pos + 2) 0)).set (2 * pos + 2)
            newitem).Nodup
          exact ((set_set_perm newitem hpos (by omega) (by omega)).nodup_iff).mpr hnd
        · intro j hj hjne
          have hj2 : j < s.heap.length := by
            have : (setpos hid (s.heap.getD (2 * pos + 2) 0) (some pos)
                { s with heap := s.heap.set pos (s.heap.getD (2 * pos + 2) 0)
                }).heap.length = s.heap.length := List.length_set _ _ _
            omega
          exact setpos_move_pre hid pos (2 * pos + 2) newitem s hpos (by omega)
            (by omega) hnd hpre j hj2 hjne
      · simp only [if_neg h2]
        apply ih (2 * pos + 1)
        · show (s.heap.set pos (s.heap.getD (2 * pos + 1) 0)).length
            - (2 * pos + 1) ≤ fuel
          rw [List.length_set]
          omega
        · show 2 * pos + 1 < (s.heap.set pos (s.heap.getD (2 * pos + 1) 0)).length
          rw [List.length_set]
          omega
        · show ((s.heap.set pos (s.heap.getD (2 * pos + 1) 0)).set (2 * pos + 1)
            newitem).Nodup
          exact ((set_set_perm newitem hpos (by omega) (by omega)).nodup_iff).mpr hnd
        · intro j hj hjne
          have hj2 : j < s.heap.length := by
            have : (setpos hid (s.heap.getD (2 * pos + 1) 0) (some pos)
                { s with heap := s.heap.set pos (s.heap.getD (2 * pos + 1) 0)
                }).heap.length = s.heap.length := List.length_set _ _ _
            omega
          exact setpos_move_pre hid pos (2 * pos + 1) newitem s hpos (by omega)
            (by omega) hnd hpre j hj2 hjne
    · simp only [if_neg hch]
      exact ⟨hpre, hnd⟩

/-- `_siftup_min` / `_siftup_max` / `_siftup_inplace` preserve position
consistency on a duplicate-free heap. -/
theorem siftup_inplace_posC (m : Bool) (val : Nat → Int) (hid pos : Nat)
    (s : St) (hpos : pos < s.heap.length) (hnd : s.heap.Nodup)
    (hps : posConsistent hid s) :
    posConsistent hid (siftup_inplace m val hid pos s) := by
  unfold siftup_inplace
  have hnd2 : (s.heap.set pos (s.heap.getD pos 0)).Nodup := by
    rwa [set_getD_self hpos]
  have hloop := siftupLoop_posC m val hid (s.heap.getD pos 0)
    (s.heap.length - pos) pos s (Nat.le_refl _) hpos hnd2
    (fun j hj _ => hps j hj)
  have hproj := siftupLoop_proj m val hid (s.heap.length - pos) pos s (Nat.le_refl _)
  have hstruct := siftupLoopL_struct m val (s.heap.length - pos) pos s.heap
    (Nat.le_refl _) hpos
  have hlenf : (siftupLoopL m val pos s.heap).2.length = s.heap.length :=
    siftupLoopL_len m val pos s.heap
  apply siftdown_posC m val hid pos (s.heap.getD pos 0)
    (siftupLoop m val hid pos s).1 (siftupLoop m val hid pos s).2
  · rw [hproj.2, hlenf, hproj.1]
    exact hstruct.1
  · exact hloop.2
  · exact hloop.1

theorem siftup_posC (m : Bool) (val : Nat → Int) (hid pos item : Nat)
    (s : St) (hpos : pos < s.heap.length)
    (hnd : (s.heap.set pos item).Nodup)
    (hpre : ∀ j, j < s.heap.length → j ≠ pos →
      s.ps (s.heap.getD j 0) hid = some j) :
    posConsistent hid (siftup m val hid pos item s) := by
  unfold siftup
  apply siftup_inplace_posC
  · show pos < (s.heap.set pos item).length
    rw [List.length_set]
    exact hpos
  · exact hnd
  · exact setpos_store_posC hid pos item s hpos hnd hpre

theorem posC_setpos_none (hid e : Nat) (s : St) (hps : posConsistent hid s)
    (hno : ∀ j, j < s.heap.length → s.heap.getD j 0 ≠ e) :
    posConsistent hid (setpos hid e none s) := by
  intro j hj
  have hj2 : j < s.heap.length := hj
  rw [show (setpos hid e none s).heap.getD j 0 = s.heap.getD j 0 from rfl,
      setpos_ps_ne_entry hid _ _ _ (hno j hj2)]
  exact hps j hj2

/-- A non-last element of a duplicate-free list is absent from
`dropLast`. -/
theorem getLast_not_mem_dropLast {l : List Nat} (hn : l.Nodup)
    (hne : l ≠ []) : l.getD (l.length - 1) 0 ∉ l.dropLast := by
  have hsplit := dropLast_append_self hne
  rw [← hsplit] at hn
  have := List.nodup_append.mp hn
  intro hmem
  exact this.2.2 hmem (List.mem_singleton.mpr rfl)

theorem push_posC (m : Bool) (val : Nat → Int) (hid item : Nat) (s : St)
    (hn : s.heap.Nodup) (hni : item ∉ s.heap)
    (hps : posConsistent hid s) :
    posConsistent hid (push m val hid item s) := by
  unfold push
  show posConsistent hid (siftdown m val hid 0
    (({ s with heap := s.heap ++ [item] } : St).heap.length - 1) item
    { s with heap := s.heap ++ [item] })
  have hlen1 : ({ s with heap := s.heap ++ [item] } : St).heap.length - 1
      = s.heap.length := by
    simp
  rw [hlen1]
  have happ : (s.heap ++ [item]).Nodup := by
    rw [List.nodup_append]
    refine ⟨hn, by simp, ?_⟩
    intro a ha hb
    rw [List.mem_singleton.mp hb] at ha
    exact hni ha
  apply siftdown_posC m val hid 0 item s.heap.length
  · show s.heap.length < (s.heap ++ [item]).length
    simp
  · show ((s.heap ++ [item]).set s.heap.length item).Nodup
    have h0 := set_getD_self (l := s.heap ++ [item]) (i := s.heap.length)
      (by simp)
    rw [getD_append_right_self] at h0
    rw [h0]
    exact happ
  · intro j hj hjne
    have hj2 : j < s.heap.length := by
      have : (s.heap ++ [item]).length = s.heap.length + 1 := by simp
      omega
    rw [show ({ s with heap := s.heap ++ [item] } : St).heap.getD j 0
        = s.heap.getD j 0 from getD_append_left hj2]
    exact hps j hj2

theorem popCore_posC (m : Bool) (val : Nat → Int) (hid : Nat) (s : St)
    (hn : s.heap.Nodup) (hps : posConsistent hid s) :
    posConsistent hid (popCore m val hid s).2 := by
  unfold popCore
  by_cases h1 : s.heap.dropLast.length = 0
  · simp only [if_pos h1]
    intro j hj
    have hj2 : j < s.heap.dropLast.length := hj
    omega
  · simp only [if_neg h1]
    have hlen : s.heap.dropLast.length = s.heap.length - 1 :=
      List.length_dropLast s.heap
    have hne : s.heap ≠ [] := by
      intro he
      rw [he] at hlen h1
      simp at h1
    have hnd1 : s.heap.dropLast.Nodup := (List.dropLast_sublist s.heap).nodup hn
    have hlm : s.heap.getD (s.heap.length - 1) 0 ∉ s.heap.dropLast :=
      getLast_not_mem_dropLast hn hne
    have hretne : s.heap.getD (s.heap.length - 1) 0 ≠ s.heap.dropLast.getD 0 0 := by
      rw [getD_dropLast (by omega)]
      exact nodup_getD_ne hn (by omega) (by omega) (by omega)
    have hs2 := siftup_posC m val hid 0 (s.heap.getD (s.heap.length - 1) 0)
      { s with heap := s.heap.dropLast }
      (show 0 < s.heap.dropLast.length by omega)
      (show (s.heap.dropLast.set 0 (s.heap.getD (s.heap.length - 1) 0)).Nodup from
        nodup_set_of_not_mem hnd1 hlm (by omega))
      (by
        intro j hj hjne
        have hj2 : j < s.heap.dropLast.length := hj
        show s.ps (s.heap.dropLast.getD j 0) hid = some j
        rw [getD_dropLast (by omega)]
        exact hps j (by omega))
    apply posC_setpos_none
    · exact hs2
    · intro j hj
      have hheap : (siftup m val hid 0 (s.heap.getD (s.heap.length - 1) 0)
          { s with heap := s.heap.dropLast }).heap
          = siftupL m val 0 (s.heap.getD (s.heap.length - 1) 0) s.heap.dropLast :=
        siftup_heap m val hid 0 _ _
      rw [hheap] at hj ⊢
      intro heq
      have hmem : s.heap.dropLast.getD 0 0
          ∈ siftupL m val 0 (s.heap.getD (s.heap.length - 1) 0) s.heap.dropLast := by
        rw [← heq]
        exact getD_mem hj
      have hperm : (siftupL m val 0 (s.heap.getD (s.heap.length - 1) 0)
          s.heap.dropLast).Perm
          (s.heap.dropLast.set 0 (s.heap.getD (s.heap.length - 1) 0)) := by
        unfold siftupL
        exact siftupInplaceL_perm m val 0 _ (by rw [List.length_set]; omega)
      have := hperm.mem_iff.mp hmem
      exact set_not_mem_self hnd1 (by omega)
        (show s.heap.getD (s.heap.length - 1) 0 ≠ s.heap.dropLast.getD 0 0
          from hretne) this

theorem removeCore_posC (m : Bool) (val : Nat → Int) (hid p item : Nat)
    (s : St) (hn : s.heap.Nodup) (hps : posConsistent hid s)
    (hp : p < s.heap.length) (hitem : s.heap.getD p 0 = item) :
    posConsistent hid (removeCore m val hid p item s) := by
  unfold removeCore
  simp only [setpos_heap]
  have hlen : s.heap.dropLast.length = s.heap.length - 1 :=
    List.length_dropLast s.heap
  have hne : s.heap ≠ [] := by
    intro he
    rw [he] at hp
    simp at hp
  have hnd1 : s.heap.dropLast.Nodup := (List.dropLast_sublist s.heap).nodup hn
  have hlm : s.heap.getD (s.heap.length - 1) 0 ∉ s.heap.dropLast :=
    getLast_not_mem_dropLast hn hne
  by_cases h1 : p < s.heap.dropLast.length
  · simp only [if_pos h1]
    have hndset : (s.heap.dropLast.set p
        (s.heap.getD (s.heap.length - 1) 0)).Nodup :=
      nodup_set_of_not_mem hnd1 hlm (by omega)
    have hpre : ∀ j, j < s.heap.dropLast.length → j ≠ p →
        (setpos hid item none s).ps (s.heap.dropLast.getD j 0) hid = some j := by
      intro j hj hjne
      rw [getD_dropLast (by omega)]
      have hjni : s.heap.getD j 0 ≠ item := by
        rw [← hitem]
        exact nodup_getD_ne hn (by omega) hp hjne
      rw [setpos_ps_ne_entry hid _ _ _ hjni]
      exact hps j (by omega)
    have hA := siftdown_posC m val hid 0 (s.heap.getD (s.heap.length - 1) 0) p
      { heap := s.heap.dropLast, ps := (setpos hid item none s).ps }
      (show p < s.heap.dropLast.length by omega) hndset hpre
    have hB := siftup_posC m val hid p (s.heap.getD (s.heap.length - 1) 0)
      { heap := s.heap.dropLast, ps := (setpos hid item none s).ps }
      (show p < s.heap.dropLast.length by omega) hndset hpre
    split
    · split
      · exact hA
      · exact hB
    · split
      · exact hB
      · exact hA
  · simp only [if_neg h1]
    intro j hj
    have hj2 : j < s.heap.dropLast.length := hj
    show (setpos hid item none s).ps (s.heap.dropLast.getD j 0) hid = some j
    rw [getD_dropLast (by omega)]
    have hjni : s.heap.getD j 0 ≠ item := by
      rw [← hitem]
      exact nodup_getD_ne hn (by omega) hp (by omega)
    rw [setpos_ps_ne_entry hid _ _ _ hjni]
    exact hps j (by omega)

theorem replaceCore_posC (m : Bool) (val : Nat → Int) (hid item : Nat)
    (s : St) (hne : s.heap ≠ []) (hn : s.heap.Nodup) (hni : item ∉ s.heap)
    (hps : posConsistent hid s) :
    posConsistent hid (replaceCore m val hid item s).2 ∧
    (replaceCore m val hid item s).2.ps (s.heap.getD 0 0) hid = none := by
  unfold replaceCore
  have hl : 0 < s.heap.length := List.length_pos.mpr hne
  have hitne : item ≠ s.heap.getD 0 0 := by
    intro heq
    exact hni (heq ▸ getD_mem hl)
  constructor
  · apply siftup_posC m val hid 0 item (setpos hid (s.heap.getD 0 0) none s) hl
    · exact nodup_set_of_not_mem hn hni hl
    · intro j hj hjne
      show (setpos hid (s.heap.getD 0 0) none s).ps (s.heap.getD j 0) hid = some j
      rw [setpos_ps_ne_entry hid _ _ _
        (nodup_getD_ne hn hj hl hjne)]
      exact hps j hj
  · rw [siftup_ps_entry m val hid 0 item (s.heap.getD 0 0)
      (setpos hid (s.heap.getD 0 0) none s) hl
      (fun heq => hitne heq.symm)
      (set_not_mem_self hn hl hitne) hid]
    exact setpos_ps_same hid _ none s

theorem pushpop_posC (m : Bool) (val : Nat → Int) (hid item : Nat) (s : St)
    (hn : s.heap.Nodup) (hni : item ∉ s.heap) (hps : posConsistent hid s) :
    posConsistent hid (pushpop m val hid item s).2 := by
  unfold pushpop
  by_cases h0 : 0 < s.heap.length
  · simp only [if_pos h0]
    split
    · exact (replaceCore_posC m val hid item s
        (List.length_pos.mp h0) hn hni hps).1
    · exact hps
  · simp only [if_neg h0]
    exact hps

theorem fixCore_posC (m : Bool) (val : Nat → Int) (hid p item : Nat)
    (is_smaller : Bool) (s : St) (hn : s.heap.Nodup)
    (hps : posConsistent hid s) (hp : p < s.heap.length)
    (hitem : s.heap.getD p 0 = item) :
    posConsistent hid (fixCore m val hid p item is_smaller s) := by
  unfold fixCore
  split
  · apply siftdown_posC m val hid 0 item p s hp
    · rw [← hitem, set_getD_self hp]
      exact hn
    · intro j hj _
      exact hps j hj
  · exact siftup_inplace_posC m val hid p s hp hn hps

/-- The clearing loop of `heapify`: afterwards an entry's position for
this heap is `none` when the entry occurred in the cleared list, and is
untouched otherwise (and for other heaps). -/
theorem clearAll_ps (hid : Nat) :
    ∀ (es : List Nat) (s : St) (e h2 : Nat),
      (clearAll hid es s).ps e h2
        = if e ∈ es ∧ h2 = hid then none else s.ps e h2 := by
  intro es
  induction es with
  | nil =>
    intro s e h2
    simp [clearAll]
  | cons a t ih =>
    intro s e h2
    show (clearAll hid t (setpos hid a none s)).ps e h2 = _
    rw [ih]
    by_cases hmem : e ∈ t ∧ h2 = hid
    · rw [if_pos hmem, if_pos ⟨List.mem_cons_of_mem a hmem.1, hmem.2⟩]
    · rw [if_neg hmem]
      by_cases hea : e = a ∧ h2 = hid
      · rw [if_pos ⟨hea.1 ▸ List.mem_cons_self a t, hea.2⟩, hea.1]
        simp [setpos, hea.2]
      · rw [if_neg (by
          intro hc
          rcases List.mem_cons.mp hc.1 with h' | h'
          · exact hea ⟨h', hc.2⟩
          · exact hmem ⟨h', hc.2⟩)]
        by_cases hh : h2 = hid
        · exact setpos_ps_ne_entry hid _ _ _ (fun he => hea ⟨he, hh⟩)
        · exact setpos_ps_ne_heap _ _ _ _ hh

/-- The position-setting loop of `heapify`, restricted to the first `n`
indices: each of those entries reports its index (duplicates aside), and
any entry not in `x` (or any other heap identity) is untouched. -/
theorem setIdxGo_ps (hid : Nat) (x : List Nat) :
    ∀ (n : Nat) (s : St), n ≤ x.length →
      (x.Nodup → ∀ i, i < n →
        ((List.range n).foldl (fun t i => setpos hid (x.getD i 0) (some i) t)
          s).ps (x.getD i 0) hid = some i) ∧
      (∀ e h2, (e ∉ x ∨ h2 ≠ hid) →
        ((List.range n).foldl (fun t i => setpos hid (x.getD i 0) (some i) t)
          s).ps e h2 = s.ps e h2) := by
  intro n
  induction n with
  | zero =>
    intro s _
    exact ⟨fun _ i hi => absurd hi (by omega), fun e h2 _ => rfl⟩
  | succ n ih =>
    intro s hn
    have hrange : List.range (n + 1) = List.range n ++ [n] :=
      List.range_succ n
    have hfold : (List.range (n + 1)).foldl
        (fun t i => setpos hid (x.getD i 0) (some i) t) s
        = setpos hid (x.getD n 0) (some n)
          ((List.range n).foldl (fun t i => setpos hid (x.getD i 0) (some i) t) s) := by
      rw [hrange, List.foldl_append]
      rfl
    obtain ⟨ihc, ihf⟩ := ih s (by omega)
    constructor
    · intro hx i hi
      rw [hfold]
      by_cases hin : i = n
      · subst hin
        exact setpos_ps_same hid _ _ _
      · rw [setpos_ps_ne_entry hid _ _ _
          (nodup_getD_ne hx (by omega) (by omega) hin)]
        exact ihc hx i (by omega)
    · intro e h2 hcond
      rw [hfold]
      have hstep : (setpos hid (x.getD n 0) (some n)
          ((List.range n).foldl (fun t i => setpos hid (x.getD i 0) (some i) t)
            s)).ps e h2
          = ((List.range n).foldl (fun t i => setpos hid (x.getD i 0) (some i) t)
            s).ps e h2 := by
        rcases hcond with hm | hh
        · exact setpos_ps_ne_entry hid _ _ _
            (fun he => hm (he ▸ getD_mem (by omega)))
        · exact setpos_ps_ne_heap _ _ _ _ hh
      rw [hstep]
      exact ihf e h2 hcond

theorem setIdx_ps_mem (hid : Nat) (x : List Nat) (s : St) (hx : x.Nodup) :
    ∀ i, i < x.length → (setIdx hid x s).ps (x.getD i 0) hid = some i :=
  (setIdxGo_ps hid x x.length s (Nat.le_refl _)).1 hx

theorem setIdx_ps_frame (hid : Nat) (x : List Nat) (s : St) (e h2 : Nat)
    (hcond : e ∉ x ∨ h2 ≠ hid) :
    (setIdx hid x s).ps e h2 = s.ps e h2 :=
  (setIdxGo_ps hid x x.length s (Nat.le_refl _)).2 e h2 hcond

theorem repairDown_posC (m : Bool) (val : Nat → Int) (hid : Nat) :
    ∀ i s, i ≤ s.heap.length → s.heap.Nodup → posConsistent hid s →
      posConsistent hid (repairDown m val hid i s) := by
  intro i
  induction i with
  | zero =>
    intro s _ _ hps
    exact hps
  | succ i ih =>
    intro s hle hn hps
    show posConsistent hid (repairDown m val hid i (siftup_inplace m val hid i s))
    have hheap : (siftup_inplace m val hid i s).heap
        = siftupInplaceL m val i s.heap := siftup_inplace_heap m val hid i s
    apply ih
    · rw [hheap, siftupInplaceL_length]
      omega
    · rw [hheap]
      exact ((siftupInplaceL_perm m val i s.heap (by omega)).nodup_iff).mpr hn
    · exact siftup_inplace_posC m val hid i s (by omega) hn hps

theorem repairDown_ps_entry (m : Bool) (val : Nat → Int) (hid : Nat) :
    ∀ i s e2 h2, i ≤ s.heap.length → e2 ∉ s.heap →
      (repairDown m val hid i s).ps e2 h2 = s.ps e2 h2 := by
  intro i
  induction i with
  | zero =>
    intro s e2 h2 _ _
    rfl
  | succ i ih =>
    intro s e2 h2 hle hmem
    show (repairDown m val hid i (siftup_inplace m val hid i s)).ps e2 h2 = _
    have hheap : (siftup_inplace m val hid i s).heap
        = siftupInplaceL m val i s.heap := siftup_inplace_heap m val hid i s
    rw [ih (siftup_inplace m val hid i s) e2 h2
        (by rw [hheap, siftupInplaceL_length]; omega)
        (by
          rw [hheap]
          intro hin
          exact hmem ((siftupInplaceL_perm m val i s.heap (by omega)).mem_iff.mp
            hin))]
    exact siftup_inplace_ps_entry m val hid i e2 s (by omega) hmem h2

/-- `heapify` establishes position consistency for a duplicate-free new
backing list. -/
theorem heapify_posC (m : Bool) (val : Nat → Int) (hid : Nat) (x : List Nat)
    (s : St) (hx : x.Nodup) : posConsistent hid (heapify m val hid x s) := by
  unfold heapify
  apply repairDown_posC
  · rw [setIdx_heap]
    show x.length / 2 ≤ x.length
    exact Nat.div_le_self _ _
  · rw [setIdx_heap]
    show x.Nodup
    exact hx
  · intro j hj
    rw [setIdx_heap] at hj
    have hj2 : j < x.length := hj
    have hg : (setIdx hid x { heap := x, ps := (clearAll hid s.heap s).ps }
        : St).heap.getD j 0 = x.getD j 0 := by
      rw [setIdx_heap]
    rw [hg]
    exact setIdx_ps_mem hid x _ hx j hj2

/-- `heapify` clears this heap's position key of every old entry that is
not part of the new list. -/
theorem heapify_clears (m : Bool) (val : Nat → Int) (hid : Nat) (x : List Nat)
    (s : St) (e : Nat) (he : e ∈ s.heap) (hex : e ∉ x) :
    (heapify m val hid x s).ps e hid = none := by
  unfold heapify
  rw [repairDown_ps_entry m val hid (x.length / 2) _ e hid
      (by
        rw [setIdx_heap]
        show x.length / 2 ≤ x.length
        exact Nat.div_le_self _ _)
      (by
        rw [setIdx_heap]
        exact hex)]
  rw [setIdx_ps_frame hid x _ e hid (Or.inl hex)]
  show (clearAll hid s.heap s).ps e hid = none
  rw [clearAll_ps hid s.heap s e hid, if_pos ⟨he, rfl⟩]

/-! ### Direction-relative order: decidability and the order axioms -/

instance (m : Bool) (x y : Int) : Decidable (vle m x y) :=
  match m with
  | true => inferInstanceAs (Decidable (x ≤ y))
  | false => inferInstanceAs (Decidable (y ≤ x))

instance (m : Bool) : DecidableRel (vle m) := fun _ _ => inferInstance

theorem vle_total (m : Bool) (x y : Int) : vle m x y ∨ vle m y x := by
  cases m <;> simp [vle] <;> omega

theorem vle_antisymm {m : Bool} {x y : Int} (h1 : vle m x y)
    (h2 : vle m y x) : x = y := by
  cases m <;> simp [vle] at h1 h2 <;> omega

/-- "Sorting x directly": the values of `x` in the direction-relative
order (ascending for a min-heap, descending for a max-heap). -/
def sortedVals (m : Bool) (val : Nat → Int) (x : List Nat) : List Int :=
  List.insertionSort (vle m) (x.map val)

/-! ### Unpacking the fallible operations -/

theorem pop_some (m : Bool) (val : Nat → Int) (hid : Nat) (s : St)
    (r : Nat) (s2 : St) (h : pop m val hid s = some (r, s2)) :
    s.heap.length ≠ 0 ∧ r = (popCore m val hid s).1 ∧
      s2 = (popCore m val hid s).2 := by
  revert h
  unfold pop
  by_cases h0 : s.heap.length = 0
  · rw [if_pos h0]
    intro h
    exact Option.noConfusion h
  · rw [if_neg h0]
    intro h
    have h2 := Option.some.inj h
    exact ⟨h0, by rw [h2], by rw [h2]⟩

theorem replace_some (m : Bool) (val : Nat → Int) (hid item : Nat) (s : St)
    (r : Nat) (s2 : St) (h : replace m val hid item s = some (r, s2)) :
    s.heap ≠ [] ∧ r = (replaceCore m val hid item s).1 ∧
      s2 = (replaceCore m val hid item s).2 := by
  revert h
  unfold replace
  by_cases h0 : s.heap.length = 0
  · rw [if_pos h0]
    intro h
    exact Option.noConfusion h
  · rw [if_neg h0]
    intro h
    have h2 := Option.some.inj h
    exact ⟨fun he => h0 (by rw [he]; rfl), by rw [h2], by rw [h2]⟩

theorem remove_some (m : Bool) (val : Nat → Int) (hid item : Nat) (s : St)
    (s2 : St) (h : remove m val hid item s = some s2) :
    ∃ p, s.ps item hid = some p ∧ p < s.heap.length ∧
      s.heap.getD p 0 = item ∧ s2 = removeCore m val hid p item s := by
  revert h
  unfold remove
  cases hl : s.ps item hid with
  | none =>
    intro h
    exact Option.noConfusion h
  | some p =>
    show (if p < s.heap.length ∧ s.heap.getD p 0 = item
        then some (removeCore m val hid p item s) else none) = some s2 → _
    intro h
    by_cases hg : p < s.heap.length ∧ s.heap.getD p 0 = item
    · rw [if_pos hg] at h
      exact ⟨p, rfl, hg.1, hg.2, (Option.some.inj h).symm⟩
    · rw [if_neg hg] at h
      exact Option.noConfusion h

theorem fix_some (m : Bool) (val : Nat → Int) (hid item : Nat)
    (is_smaller : Bool) (s : St) (s2 : St)
    (h : fix_after_delta m val hid item is_smaller s = some s2) :
    ∃ p, s.ps item hid = some p ∧ p < s.heap.length ∧
      s.heap.getD p 0 = item ∧
      s2 = fixCore m val hid p item is_smaller s := by
  revert h
  unfold fix_after_delta
  cases hl : s.ps item hid with
  | none =>
    intro h
    exact Option.noConfusion h
  | some p =>
    show (if p < s.heap.length ∧ s.heap.getD p 0 = item
        then some (fixCore m val hid p item is_smaller s) else none)
          = some s2 → _
    intro h
    by_cases hg : p < s.heap.length ∧ s.heap.getD p 0 = item
    · rw [if_pos hg] at h
      exact ⟨p, rfl, hg.1, hg.2, (Option.some.inj h).symm⟩
    · rw [if_neg hg] at h
      exact Option.noConfusion h

/-! ### The entry classes `HVal` and `MultiHVal`

`HVal` stores a single `pos` slot, initialised to the sentinel `-1`; its
`getpos` returns the slot whether or not the entry is in any heap.
`MultiHVal` keeps a dictionary keyed by heap identity; `setpos(heap, -1)`
deletes the key (absence is `none` here), and `getpos` raises `KeyError`
on a missing key (`none` here). -/

structure HVal where
  val : Int
  pos : Int

/-- `HVal.__init__(val)`: `self.pos = -1`. -/
def HVal.init (v : Int) : HVal := { val := v, pos := -1 }

/-- `HVal.setpos(heap, pos)`: store `pos`, ignoring which heap asked. -/
def HVal.setpos (e : HVal) (heap : Nat) (p : Int) : HVal := { e with pos := p }

/-- `HVal.getpos(heap)`: `return self.pos`, unconditionally. -/
def HVal.getpos (e : HVal) (heap : Nat) : Int := e.pos

/-- `HVal.__lt__`. -/
def HVal.lt (a b : HVal) : Bool := decide (a.val < b.val)

/-- `HVal.__gt__`. -/
def HVal.gt (a b : HVal) : Bool := decide (b.val < a.val)

structure MultiHVal where
  val : Int
  pos : Nat → Option Nat

/-- `MultiHVal.__init__(val)`: `self.pos = {}`. -/
def MultiHVal.init (v : Int) : MultiHVal := { val := v, pos := fun _ => none }

/-- `MultiHVal.setpos(heap, pos)`: `pos == -1` (here `none`) deletes the
heap's key, swallowing the `KeyError` if it was already absent; any other
position is stored under the heap's key. -/
def MultiHVal.setpos (e : MultiHVal) (heap : Nat) (p : Option Nat) :
    MultiHVal :=
  match p with
  | none => { e with pos := fun h => if h = heap then none else e.pos h }
  | some q => { e with pos := fun h => if h = heap then some q else e.pos h }

/-- `MultiHVal.getpos(heap)`: `return self.pos[heap]`; a missing key is
the `KeyError`, i.e. `none`. -/
def MultiHVal.getpos (e : MultiHVal) (heap : Nat) : Option Nat := e.pos heap

/-- `MultiHVal.__lt__`. -/
def MultiHVal.lt (a b : MultiHVal) : Bool := decide (a.val < b.val)

/-- `MultiHVal.__gt__`. -/
def MultiHVal.gt (a b : MultiHVal) : Bool := decide (b.val < a.val)

/-! ### Concrete example heaps for evaluating the theorems -/

/-- Entry `e` has ordering value `e`. -/
def exVal : Nat → Int := fun e => (e : Int)

/-- Entry 2's value dropped from `2` to `-1`; all others as `exVal`. -/
def exVal4 : Nat → Int := fun e => if e = 2 then -1 else (e : Int)

/-- A consistent three-entry min-heap under heap identity 0. -/
def exSt : St :=
  { heap := [0, 1, 2],
    ps := fun e h => if h = 0 ∧ e < 3 then some e else none }

/-- Entry `e`'s ordering value, for the max-heap counterexample:
`10, 8, 9, 7, 6` for entries `0..4`. -/
def exValC3 : Nat → Int := fun e => ([10, 8, 9, 7, 6] : List Int).getD e 0

/-- A consistent five-entry max-heap under heap identity 0. -/
def exStC3 : St :=
  { heap := [0, 1, 2, 3, 4],
    ps := fun e h => if h = 0 ∧ e < 5 then some e else none }

/-! ### The claims -/

/-- Claim C1: on any heap whose backing list satisfies the heap-ordering
invariant (in particular any non-empty one), popping until empty returns
the entries as a permutation of the heap in direction-sorted value order
(ascending for a min-heap, descending for a max-heap), and afterwards the
heap is empty and satisfies the heap-ordering and position-consistency
invariants. -/
theorem claim_C1 (m : Bool) (val : Nat → Int) (hid : Nat) (s : St)
    (hne : s.heap ≠ []) (hord : heapOrd m val s.heap) :
    (drain m val hid s).1.Perm s.heap ∧
    List.Pairwise (fun a b => vle m (val a) (val b)) (drain m val hid s).1 ∧
    (drain m val hid s).2.heap = [] ∧
    heapOrd m val (drain m val hid s).2.heap ∧
    posConsistent hid (drain m val hid s).2 := by
  obtain ⟨hperm, hnil, hsort⟩ :=
    drainGoL_spec m val s.heap.length s.heap le_rfl hord
  have hp := drainGo_proj m val hid s.heap.length s
  have h1 : (drain m val hid s).1
      = (drainGoL m val s.heap.length s.heap).1 := hp.1
  have h2 : (drain m val hid s).2.heap
      = (drainGoL m val s.heap.length s.heap).2 := hp.2
  refine ⟨?_, ?_, ?_, ?_, ?_⟩
  · rw [h1]
    exact hperm
  · rw [h1]
    exact hsort
  · rw [h2]
    exact hnil
  · rw [h2, hnil]
    intro c hc hc0
    simp at hc
  · intro i hi
    rw [h2, hnil] at hi
    simp at hi

theorem claim_C1_witness :
    exSt.heap ≠ [] ∧ heapOrd true exVal exSt.heap ∧
    ((drain true exVal 0 exSt).1.Perm exSt.heap ∧
     List.Pairwise (fun a b => vle true (exVal a) (exVal b))
       (drain true exVal 0 exSt).1 ∧
     (drain true exVal 0 exSt).2.heap = [] ∧
     heapOrd true exVal (drain true exVal 0 exSt).2.heap ∧
     posConsistent 0 (drain true exVal 0 exSt).2) :=
  ⟨by decide, by decide,
   claim_C1 true exVal 0 exSt (by decide) (by decide)⟩

/-- Claim C2: on a duplicate-free, position-consistent heap, every public
operation — heapify, push, pop, remove, replace, pushpop, decreased and
increased — preserves position consistency: afterwards the entry at each
index `i` of the backing list records position `i` for this heap's
identity. -/
theorem claim_C2 (m : Bool) (val : Nat → Int) (hid : Nat) (s : St)
    (hn : s.heap.Nodup) (hps : posConsistent hid s) :
    (∀ x : List Nat, x.Nodup → posConsistent hid (heapify m val hid x s)) ∧
    (∀ item, item ∉ s.heap → posConsistent hid (push m val hid item s)) ∧
    (∀ r s2, pop m val hid s = some (r, s2) → posConsistent hid s2) ∧
    (∀ item s2, remove m val hid item s = some s2 → posConsistent hid s2) ∧
    (∀ item r s2, item ∉ s.heap → replace m val hid item s = some (r, s2) →
      posConsistent hid s2) ∧
    (∀ item, item ∉ s.heap → posConsistent hid (pushpop m val hid item s).2) ∧
    (∀ item s2, decreased m val hid item s = some s2 →
      posConsistent hid s2) ∧
    (∀ item s2, increased m val hid item s = some s2 →
      posConsistent hid s2) := by
  refine ⟨?_, ?_, ?_, ?_, ?_, ?_, ?_, ?_⟩
  · intro x hx
    exact heapify_posC m val hid x s hx
  · intro item hni
    exact push_posC m val hid item s hn hni hps
  · intro r s2 h
    obtain ⟨-, -, h2⟩ := pop_some m val hid s r s2 h
    rw [h2]
    exact popCore_posC m val hid s hn hps
  · intro item s2 h
    obtain ⟨p, -, hp, hitem, h2⟩ := remove_some m val hid item s s2 h
    rw [h2]
    exact removeCore_posC m val hid p item s hn hps hp hitem
  · intro item r s2 hni h
    obtain ⟨hne, -, h2⟩ := replace_some m val hid item s r s2 h
    rw [h2]
    exact (replaceCore_posC m val hid item s hne hn hni hps).1
  · intro item hni
    exact pushpop_posC m val hid item s hn hni hps
  · intro item s2 h
    unfold decreased at h
    obtain ⟨p, -, hp, hitem, h2⟩ := fix_some m val hid item true s s2 h
    rw [h2]
    exact fixCore_posC m val hid p item true s hn hps hp hitem
  · intro item s2 h
    unfold increased at h
    obtain ⟨p, -, hp, hitem, h2⟩ := fix_some m val hid item false s s2 h
    rw [h2]
    exact fixCore_posC m val hid p item false s hn hps hp hitem

theorem claim_C2_witness :
    exSt.heap.Nodup ∧ posConsistent 0 exSt ∧
    ((∀ x : List Nat, x.Nodup → posConsistent 0 (heapify true exVal 0 x exSt)) ∧
     (∀ item, item ∉ exSt.heap →
       posConsistent 0 (push true exVal 0 item exSt)) ∧
     (∀ r s2, pop true exVal 0 exSt = some (r, s2) → posConsistent 0 s2) ∧
     (∀ item s2, remove true exVal 0 item exSt = some s2 →
       posConsistent 0 s2) ∧
     (∀ item r s2, item ∉ exSt.heap →
       replace true exVal 0 item exSt = some (r, s2) → posConsistent 0 s2) ∧
     (∀ item, item ∉ exSt.heap →
       posConsistent 0 (pushpop true exVal 0 item exSt).2) ∧
     (∀ item s2, decreased true exVal 0 item exSt = some s2 →
       posConsistent 0 s2) ∧
     (∀ item s2, increased true exVal 0 item exSt = some s2 →
       posConsistent 0 s2)) :=
  ⟨by decide, by decide, claim_C2 true exVal 0 exSt (by decide) (by decide)⟩

/-- Claim C3 (refuted: code bug in `Heap.remove`'s max-heap branch).  On
the valid, consistent five-entry max-heap `exStC3` (values
`10, 8, 9, 7, 6`), removing the entry at position 1 (value `8`) displaces
the last entry (value `6`, which does **not** follow the removed entry, so
the claimed one-test rule says to sink it); the code instead pairs the
max-heap test with the opposite sift directions (`lastelt > item` runs
`_siftup`, else `_siftdown`), rises it, and produces the backing list
`[0, 4, 2, 3]`, which violates the heap-ordering invariant (value `7` at
index 3 exceeds its parent's value `6` at index 1).  Sinking as the rule
prescribes (`siftupL` from position 1) would have produced a valid
max-heap. -/
theorem claim_C3 :
    heapOrd false exValC3 exStC3.heap ∧
    exStC3.heap.Nodup ∧
    posConsistent 0 exStC3 ∧
    elt false exValC3 4 1 = false ∧
    (remove false exValC3 0 1 exStC3).map St.heap = some [0, 4, 2, 3] ∧
    ¬ heapOrd false exValC3 [0, 4, 2, 3] ∧
    heapOrd false exValC3 (siftupL false exValC3 1 4 [0, 1, 2, 3]) := by
  refine ⟨by decide, by decide, by decide, by decide, ?_, by decide, by decide⟩
  decide

/-- The full specification of `fix_after_delta` on a resident entry whose
value alone changed in the declared direction: the lookup succeeds, the
dispatch body runs, and the result is a valid, consistent permutation of
the old heap under the new values. -/
theorem fix_spec_aux (m : Bool) (val0 val : Nat → Int) (hid item : Nat)
    (s : St) (is_smaller : Bool)
    (hn : s.heap.Nodup) (hps : posConsistent hid s) (hmem : item ∈ s.heap)
    (hagree : ∀ e, e ≠ item → val e = val0 e) (hord : heapOrd m val0 s.heap)
    (hdir : (is_smaller = true ∧ val item ≤ val0 item) ∨
            (is_smaller = false ∧ val0 item ≤ val item)) :
    ∃ p, s.ps item hid = some p ∧
      fix_after_delta m val hid item is_smaller s
        = some (fixCore m val hid p item is_smaller s) ∧
      heapOrd m val (fixCore m val hid p item is_smaller s).heap ∧
      posConsistent hid (fixCore m val hid p item is_smaller s) ∧
      (fixCore m val hid p item is_smaller s).heap.Perm s.heap := by
  obtain ⟨p, hp, hgd⟩ := mem_exists_getD hmem
  have hpos : s.ps item hid = some p := by
    have := hps p hp
    rwa [hgd] at this
  have honly : ∀ j, j < s.heap.length → j ≠ p → s.heap.getD j 0 ≠ item := by
    intro j hj hjne
    rw [← hgd]
    exact nodup_getD_ne hn hj hp hjne
  refine ⟨p, hpos, ?_, ?_, ?_, ?_⟩
  · unfold fix_after_delta
    rw [hpos]
    show (if p < s.heap.length ∧ s.heap.getD p 0 = item
        then some (fixCore m val hid p item is_smaller s) else none) = _
    rw [if_pos ⟨hp, hgd⟩]
  · rw [fixCore_heap]
    exact fixCoreL_heapOrd m val0 val p item is_smaller s.heap hp hgd honly
      hagree hord hdir
  · exact fixCore_posC m val hid p item is_smaller s hn hps hp hgd
  · rw [fixCore_heap]
    exact fixCoreL_perm m val p item is_smaller s.heap hp hgd

/-- Claim C4: for an entry resident in a duplicate-free, consistent heap
that was valid under the old values `val0`, and whose value alone changed
to `val item`, calling `decreased` after a decrease (or `increased` after
an increase) succeeds, runs the one-test dispatch body `fixCore` at the
entry's recorded position (rise when the change direction aligns with the
heap's direction, otherwise sink in place), and afterwards the
heap-ordering and position-consistency invariants hold under the new
values with the same multiset of entries. -/
theorem claim_C4 (m : Bool) (val0 val : Nat → Int) (hid item : Nat)
    (s : St) (hn : s.heap.Nodup) (hps : posConsistent hid s)
    (hmem : item ∈ s.heap)
    (hagree : ∀ e, e ≠ item → val e = val0 e)
    (hord : heapOrd m val0 s.heap) :
    (val item ≤ val0 item → ∃ p, s.ps item hid = some p ∧
      decreased m val hid item s = some (fixCore m val hid p item true s) ∧
      heapOrd m val (fixCore m val hid p item true s).heap ∧
      posConsistent hid (fixCore m val hid p item true s) ∧
      (fixCore m val hid p item true s).heap.Perm s.heap) ∧
    (val0 item ≤ val item → ∃ p, s.ps item hid = some p ∧
      increased m val hid item s = some (fixCore m val hid p item false s) ∧
      heapOrd m val (fixCore m val hid p item false s).heap ∧
      posConsistent hid (fixCore m val hid p item false s) ∧
      (fixCore m val hid p item false s).heap.Perm s.heap) := by
  constructor
  · intro hle
    exact fix_spec_aux m val0 val hid item s true hn hps hmem hagree hord
      (Or.inl ⟨rfl, hle⟩)
  · intro hle
    exact fix_spec_aux m val0 val hid item s false hn hps hmem hagree hord
      (Or.inr ⟨rfl, hle⟩)

theorem claim_C4_witness :
    exSt.heap.Nodup ∧ posConsistent 0 exSt ∧ (2 : Nat) ∈ exSt.heap ∧
    (∀ e, e ≠ 2 → exVal4 e = exVal e) ∧ heapOrd true exVal exSt.heap ∧
    exVal4 2 ≤ exVal 2 ∧
    ((exVal4 2 ≤ exVal 2 → ∃ p, exSt.ps 2 0 = some p ∧
      decreased true exVal4 0 2 exSt
        = some (fixCore true exVal4 0 p 2 true exSt) ∧
      heapOrd true exVal4 (fixCore true exVal4 0 p 2 true exSt).heap ∧
      posConsistent 0 (fixCore true exVal4 0 p 2 true exSt) ∧
      (fixCore true exVal4 0 p 2 true exSt).heap.Perm exSt.heap) ∧
     (exVal 2 ≤ exVal4 2 → ∃ p, exSt.ps 2 0 = some p ∧
      increased true exVal4 0 2 exSt
        = some (fixCore true exVal4 0 p 2 false exSt) ∧
      heapOrd true exVal4 (fixCore true exVal4 0 p 2 false exSt).heap ∧
      posConsistent 0 (fixCore true exVal4 0 p 2 false exSt) ∧
      (fixCore true exVal4 0 p 2 false exSt).heap.Perm exSt.heap)) :=
  ⟨by decide, by decide, by decide,
   fun e he => by simp [exVal4, exVal, he], by decide, by decide,
   claim_C4 true exVal exVal4 0 2 exSt (by decide) (by decide) (by decide)
     (fun e he => by simp [exVal4, exVal, he]) (by decide)⟩

/-- Draining a valid heap yields exactly the direction-sorted values of
any list the heap's contents permute. -/
theorem drain_sorted_vals (m : Bool) (val : Nat → Int) (l x : List Nat)
    (hord : heapOrd m val l) (hperm : l.Perm x) :
    (drainGoL m val l.length l).1.map val = sortedVals m val x := by
  obtain ⟨hp, -, hsort⟩ := drainGoL_spec m val l.length l le_rfl hord
  haveI hT : IsTrans Int (vle m) := ⟨fun _ _ _ h1 h2 => vle_trans h1 h2⟩
  haveI hA : IsAntisymm Int (vle m) := ⟨fun _ _ h1 h2 => vle_antisymm h1 h2⟩
  haveI hTot : IsTotal Int (vle m) := ⟨fun a b => vle_total m a b⟩
  refine List.eq_of_perm_of_sorted (r := vle m) ?_ ?_ ?_
  · exact ((hp.trans hperm).map val).trans
      (List.perm_insertionSort (vle m) (x.map val)).symm
  · show List.Pairwise (vle m) _
    rw [List.pairwise_map]
    exact hsort
  · exact List.sorted_insertionSort (vle m) (x.map val)

/-- Claim C5: for any duplicate-free list `x`, `heapify(x)` installs `x`,
clears this heap's position key of every old entry not in `x`, leaves
every element's recorded position equal to its index (position
consistency), satisfies the heap-ordering invariant after the bottom-up
repair, and draining the result by `pop()` yields exactly the same value
sequence as sorting `x` directly. -/
theorem claim_C5 (m : Bool) (val : Nat → Int) (hid : Nat) (x : List Nat)
    (s : St) (hx : x.Nodup) :
    heapOrd m val (heapify m val hid x s).heap ∧
    posConsistent hid (heapify m val hid x s) ∧
    (heapify m val hid x s).heap.Perm x ∧
    (∀ e, e ∈ s.heap → e ∉ x → (heapify m val hid x s).ps e hid = none) ∧
    (drain m val hid (heapify m val hid x s)).1.map val
      = sortedVals m val x := by
  have hh : (heapify m val hid x s).heap = heapifyL m val x :=
    heapify_heap m val hid x s
  have hord : heapOrd m val (heapify m val hid x s).heap := by
    rw [hh]
    exact heapifyL_heapOrd m val x
  have hpermx : (heapify m val hid x s).heap.Perm x := by
    rw [hh]
    exact heapifyL_perm m val x
  refine ⟨hord, heapify_posC m val hid x s hx, hpermx, ?_, ?_⟩
  · intro e he hex
    exact heapify_clears m val hid x s e he hex
  · have hproj := drainGo_proj m val hid (heapify m val hid x s).heap.length
      (heapify m val hid x s)
    have h1 : (drain m val hid (heapify m val hid x s)).1
        = (drainGoL m val (heapify m val hid x s).heap.length
            (heapify m val hid x s).heap).1 := hproj.1
    rw [h1]
    exact drain_sorted_vals m val (heapify m val hid x s).heap x hord hpermx

theorem claim_C5_witness :
    ([2, 0, 1] : List Nat).Nodup ∧
    (heapOrd true exVal (heapify true exVal 0 [2, 0, 1] exSt).heap ∧
     posConsistent 0 (heapify true exVal 0 [2, 0, 1] exSt) ∧
     (heapify true exVal 0 [2, 0, 1] exSt).heap.Perm [2, 0, 1] ∧
     (∀ e, e ∈ exSt.heap → e ∉ ([2, 0, 1] : List Nat) →
       (heapify true exVal 0 [2, 0, 1] exSt).ps e 0 = none) ∧
     (drain true exVal 0 (heapify true exVal 0 [2, 0, 1] exSt)).1.map exVal
       = sortedVals true exVal [2, 0, 1]) :=
  ⟨by decide, claim_C5 true exVal 0 [2, 0, 1] exSt (by decide)⟩

/-- Sinking the replacement entry from the root preserves the
heap-ordering invariant. -/
theorem replaceCoreL_heapOrd (m : Bool) (val : Nat → Int) (item : Nat)
    (l : List Nat) (hl : 0 < l.length) (h : heapOrd m val l) :
    heapOrd m val (replaceCoreL m val item l).2 := by
  show heapOrd m val (siftupL m val 0 item l)
  unfold siftupL
  rw [heapOrd_iff_heapFrom]
  apply siftupInplaceL_heapFrom m val 0 (l.set 0 item)
    (by rw [List.length_set]; exact hl)
  intro c hc hc0 _ hpne
  rw [List.length_set] at hc
  unfold hOrdAt
  have hpc : parent c < c := parent_lt hc0
  rw [getD_set_ne _ _ (by omega), getD_set_ne _ _ (fun he => hpne he.symm)]
  exact h c hc hc0

/-- `replace`'s backing list is a permutation of the old one with the
root swapped out for the new entry. -/
theorem replaceCoreL_perm (m : Bool) (val : Nat → Int) (item : Nat)
    (l : List Nat) (hl : 0 < l.length) :
    (replaceCoreL m val item l).2.Perm (item :: l.tail) := by
  show (siftupL m val 0 item l).Perm _
  unfold siftupL
  have h := siftupInplaceL_perm m val 0 (l.set 0 item)
    (by rw [List.length_set]; exact hl)
  refine h.trans ?_
  cases l with
  | nil => simp at hl
  | cons a t => exact List.Perm.refl _

/-- Claim C6: on a non-empty, valid, duplicate-free, consistent heap,
`replace(item)` (for a fresh entry) succeeds, returns exactly the old
root, and leaves a valid, consistent heap whose contents are the old
multiset with the root removed and `item` added — the same observables as
`pop()` followed by `push(item)`: the popped entry equals `replace`'s
return, and the pop-then-push heap is a valid permutation of `replace`'s
heap.  No ordering test is made between `item` and the old root. -/
theorem claim_C6 (m : Bool) (val : Nat → Int) (hid item : Nat) (s : St)
    (hne : s.heap ≠ []) (hord : heapOrd m val s.heap) (hn : s.heap.Nodup)
    (hni : item ∉ s.heap) (hps : posConsistent hid s) :
    ∃ r s2, replace m val hid item s = some (r, s2) ∧
      r = s.heap.getD 0 0 ∧
      heapOrd m val s2.heap ∧ posConsistent hid s2 ∧
      s2.heap.Perm (item :: s.heap.tail) ∧
      ∀ r2 s3, pop m val hid s = some (r2, s3) →
        r2 = r ∧ heapOrd m val (push m val hid item s3).heap ∧
        (push m val hid item s3).heap.Perm s2.heap := by
  have hl : 0 < s.heap.length := List.length_pos.mpr hne
  refine ⟨(replaceCore m val hid item s).1, (replaceCore m val hid item s).2,
    ?_, ?_, ?_, ?_, ?_, ?_⟩
  · unfold replace
    rw [if_neg (by omega)]
  · rw [(replaceCore_proj m val hid item s).1]
    rfl
  · rw [(replaceCore_proj m val hid item s).2]
    exact replaceCoreL_heapOrd m val item s.heap hl hord
  · exact (replaceCore_posC m val hid item s hne hn hni hps).1
  · rw [(replaceCore_proj m val hid item s).2]
    exact replaceCoreL_perm m val item s.heap hl
  · intro r2 s3 h
    obtain ⟨h0, hr2, hs3⟩ := pop_some m val hid s r2 s3 h
    refine ⟨?_, ?_, ?_⟩
    · rw [hr2, (popCore_proj m val hid s).1, popCoreL_fst m val s.heap hne,
          (replaceCore_proj m val hid item s).1]
      rfl
    · rw [push_heap, hs3, (popCore_proj m val hid s).2]
      exact pushL_heapOrd m val item _ (popCoreL_heapOrd m val s.heap hord)
    · rw [push_heap, hs3, (popCore_proj m val hid s).2,
          (replaceCore_proj m val hid item s).2]
      refine (pushL_perm m val item _).trans ?_
      refine (List.perm_append_singleton _ _).trans ?_
      refine (List.Perm.cons item ?_).trans
        (replaceCoreL_perm m val item s.heap hl).symm
      have hp := popCoreL_perm m val s.heap hne
      rw [popCoreL_fst m val s.heap hne] at hp
      cases hhl : s.heap with
      | nil => exact absurd hhl hne
      | cons a t =>
        rw [hhl] at hp
        have ha : ((a :: t).getD 0 0) = a := rfl
        rw [ha] at hp
        exact hp.cons_inv

theorem claim_C6_witness :
    exSt.heap ≠ [] ∧ heapOrd true exVal exSt.heap ∧ exSt.heap.Nodup ∧
    (5 : Nat) ∉ exSt.heap ∧ posConsistent 0 exSt ∧
    (∃ r s2, replace true exVal 0 5 exSt = some (r, s2) ∧
      r = exSt.heap.getD 0 0 ∧
      heapOrd true exVal s2.heap ∧ posConsistent 0 s2 ∧
      s2.heap.Perm (5 :: exSt.heap.tail) ∧
      ∀ r2 s3, pop true exVal 0 exSt = some (r2, s3) →
        r2 = r ∧ heapOrd true exVal (push true exVal 0 5 s3).heap ∧
        (push true exVal 0 5 s3).heap.Perm s2.heap) :=
  ⟨by decide, by decide, by decide, by decide, by decide,
   claim_C6 true exVal 0 5 exSt (by decide) (by decide) (by decide)
     (by decide) (by decide)⟩

/-- Claim C7: `pushpop(item)` returns `item` with the heap untouched when
the heap is empty (the entry is never inserted); on a non-empty heap it
runs the root-displacement test `heap[0] < item` (min) / `heap[0] > item`
(max): when the root would be displaced it behaves exactly as
`replace(item)` (and `replace` succeeds with that very result), and
otherwise it hands `item` back with the heap unmodified. -/
theorem claim_C7 (m : Bool) (val : Nat → Int) (hid item : Nat) (s : St) :
    (s.heap = [] → pushpop m val hid item s = (item, s)) ∧
    (s.heap ≠ [] → elt m val (s.heap.getD 0 0) item = true →
      pushpop m val hid item s = replaceCore m val hid item s ∧
      replace m val hid item s = some (pushpop m val hid item s)) ∧
    (elt m val (s.heap.getD 0 0) item = false →
      pushpop m val hid item s = (item, s)) := by
  refine ⟨?_, ?_, ?_⟩
  · intro h
    unfold pushpop
    rw [if_neg (by rw [h]; simp)]
  · intro hne helt
    have hl : 0 < s.heap.length := List.length_pos.mpr hne
    unfold pushpop
    rw [if_pos hl, if_pos helt]
    refine ⟨rfl, ?_⟩
    unfold replace
    rw [if_neg (by omega)]
  · intro helt
    unfold pushpop
    by_cases h0 : 0 < s.heap.length
    · rw [if_pos h0, if_neg (by rw [helt]; simp)]
    · rw [if_neg h0]

/-- Claim C8 (corrected): only the multi-heap entry class fails fast.
`MultiHVal.getpos` raises `KeyError` (here `none`) for any heap identity
its position dictionary does not hold — in particular a fresh entry — but
the single-heap `HVal.getpos` never fails: it hands back its `pos` slot,
which for an entry in no heap is the sentinel `-1`. -/
theorem claim_C8 :
    (∀ (e : MultiHVal) (h : Nat), e.pos h = none → e.getpos h = none) ∧
    (∀ (v : Int) (h : Nat), (MultiHVal.init v).getpos h = none) ∧
    (∀ (v : Int) (h : Nat), (HVal.init v).getpos h = -1) :=
  ⟨fun _ _ hp => hp, fun _ _ => rfl, fun _ _ => rfl⟩

/-- Claim C8, counterexample to the stated property: a fresh single-heap
entry is resident in no heap, yet querying its position returns the `-1`
sentinel instead of failing. -/
theorem claim_C8_cex : (HVal.init 5).getpos 0 = -1 := rfl

/-- `_siftdown` never reads the hole it starts from: overwriting the
start slot beforehand changes nothing (the first parent move, or the
final store, overwrites it). -/
theorem siftdown_hole (m : Bool) (val : Nat → Int) (hid sp newitem : Nat)
    (pos z : Nat) (s : St) :
    siftdown m val hid sp pos newitem { s with heap := s.heap.set pos z }
      = siftdown m val hid sp pos newitem s := by
  conv_lhs => rw [siftdown_eq]
  conv_rhs => rw [siftdown_eq]
  cases pos with
  | zero =>
    have hsp : ¬ sp < 0 := by omega
    rw [if_neg hsp, if_neg hsp]
    dsimp only
    rw [List.set_set]
  | succ k =>
    have hpl : parent (k + 1) < k + 1 := parent_lt (by omega)
    have hget : ({ s with heap := s.heap.set (k + 1) z } : St).heap.getD
        (parent (k + 1)) 0 = s.heap.getD (parent (k + 1)) 0 := by
      show (s.heap.set (k + 1) z).getD (parent (k + 1)) 0 = _
      exact getD_set_ne _ _ (by omega)
    by_cases hsp : sp < k + 1
    · rw [if_pos hsp, if_pos hsp, hget]
      by_cases hm : elt m val newitem (s.heap.getD (parent (k + 1)) 0) = true
      · rw [if_pos hm, if_pos hm]
        dsimp only
        rw [List.set_set]
      · rw [if_neg hm, if_neg hm]
        dsimp only
        rw [List.set_set]
    · rw [if_neg hsp, if_neg hsp]
      dsimp only
      rw [List.set_set]

/-- After `remove`, the removed entry's position key for this heap stays
cleared: the repair sifts never touch it. -/
theorem removeCore_ps_item (m : Bool) (val : Nat → Int) (hid p item : Nat)
    (s : St) (hn : s.heap.Nodup) (hp : p < s.heap.length)
    (hitem : s.heap.getD p 0 = item) :
    (removeCore m val hid p item s).ps item hid = none := by
  unfold removeCore
  simp only [setpos_heap]
  have hlen : s.heap.dropLast.length = s.heap.length - 1 :=
    List.length_dropLast s.heap
  by_cases h1 : p < s.heap.dropLast.length
  · simp only [if_pos h1]
    have hlast_ne : s.heap.getD (s.heap.length - 1) 0 ≠ item := by
      rw [← hitem]
      exact nodup_getD_ne hn (by omega) hp (by omega)
    have hdnd : s.heap.dropLast.Nodup := (List.dropLast_sublist s.heap).nodup hn
    have hmem2 : item ∉
        s.heap.dropLast.set p (s.heap.getD (s.heap.length - 1) 0) := by
      intro hmem
      obtain ⟨j, hj, hg⟩ := mem_exists_getD hmem
      rw [List.length_set] at hj
      by_cases hjp : j = p
      · subst hjp
        rw [getD_set_self _ hj] at hg
        exact hlast_ne hg
      · rw [getD_set_ne _ _ (fun he => hjp he.symm)] at hg
        have hgp : s.heap.dropLast.getD p 0 = item := by
          rw [getD_dropLast (by omega)]
          exact hitem
        exact nodup_getD_ne hdnd hj h1 hjp (hg.trans hgp.symm)
    have hni2 : item ≠ s.heap.getD (s.heap.length - 1) 0 :=
      fun he => hlast_ne he.symm
    have hsd : ∀ sp : Nat,
        (siftdown m val hid sp p (s.heap.getD (s.heap.length - 1) 0)
          { setpos hid item none s with heap := s.heap.dropLast }).ps item hid
          = none := by
      intro sp
      rw [← siftdown_hole m val hid sp (s.heap.getD (s.heap.length - 1) 0) p
        (s.heap.getD (s.heap.length - 1) 0)
        { setpos hid item none s with heap := s.heap.dropLast }]
      rw [siftdown_ps_entry m val hid sp (s.heap.getD (s.heap.length - 1) 0)
        item p _ (by simp only [List.length_set]; exact h1) hmem2 hni2 hid]
      exact setpos_ps_same hid item none s
    have hsu : (siftup m val hid p (s.heap.getD (s.heap.length - 1) 0)
        { setpos hid item none s with heap := s.heap.dropLast }).ps item hid
        = none := by
      rw [siftup_ps_entry m val hid p (s.heap.getD (s.heap.length - 1) 0)
        item _ h1 hni2 hmem2 hid]
      exact setpos_ps_same hid item none s
    split
    · split
      · exact hsd 0
      · exact hsu
    · split
      · exact hsu
      · exact hsd 0
  · simp only [if_neg h1]
    exact setpos_ps_same hid item none s

/-- Claim C9: a structural operation on heap A — push, pop, remove, or a
key-change repair — leaves every entry's recorded position for any other
heap identity B unchanged; and removing an entry deletes its key for A
itself (the removed entry's position for A ends absent). -/
theorem claim_C9 (m : Bool) (val : Nat → Int) (hidA hidB : Nat) (s : St)
    (hBA : hidB ≠ hidA) (hn : s.heap.Nodup) :
    (∀ item e2, (push m val hidA item s).ps e2 hidB = s.ps e2 hidB) ∧
    (∀ r s2 e2, pop m val hidA s = some (r, s2) →
      s2.ps e2 hidB = s.ps e2 hidB) ∧
    (∀ item s2 e2, remove m val hidA item s = some s2 →
      s2.ps e2 hidB = s.ps e2 hidB) ∧
    (∀ item is_smaller s2 e2,
      fix_after_delta m val hidA item is_smaller s = some s2 →
      s2.ps e2 hidB = s.ps e2 hidB) ∧
    (∀ item s2, remove m val hidA item s = some s2 →
      s2.ps item hidA = none) := by
  refine ⟨?_, ?_, ?_, ?_, ?_⟩
  · intro item e2
    exact push_ps_hfr m val hidA item s e2 hidB hBA
  · intro r s2 e2 h
    obtain ⟨-, -, h2⟩ := pop_some m val hidA s r s2 h
    rw [h2]
    exact popCore_ps_hfr m val hidA s e2 hidB hBA
  · intro item s2 e2 h
    obtain ⟨p, -, hp, hitem, h2⟩ := remove_some m val hidA item s s2 h
    rw [h2]
    exact removeCore_ps_hfr m val hidA p item s e2 hidB hBA
  · intro item is_smaller s2 e2 h
    obtain ⟨p, -, hp, hitem, h2⟩ := fix_some m val hidA item is_smaller s s2 h
    rw [h2]
    exact fixCore_ps_hfr m val hidA p item is_smaller s e2 hidB hBA
  · intro item s2 h
    obtain ⟨p, -, hp, hitem, h2⟩ := remove_some m val hidA item s s2 h
    rw [h2]
    exact removeCore_ps_item m val hidA p item s hn hp hitem

theorem claim_C9_witness :
    (1 : Nat) ≠ 0 ∧ exSt.heap.Nodup ∧
    ((∀ item e2, (push true exVal 0 item exSt).ps e2 1 = exSt.ps e2 1) ∧
     (∀ r s2 e2, pop true exVal 0 exSt = some (r, s2) →
       s2.ps e2 1 = exSt.ps e2 1) ∧
     (∀ item s2 e2, remove true exVal 0 item exSt = some s2 →
       s2.ps e2 1 = exSt.ps e2 1) ∧
     (∀ item is_smaller s2 e2,
       fix_after_delta true exVal 0 item is_smaller exSt = some s2 →
       s2.ps e2 1 = exSt.ps e2 1) ∧
     (∀ item s2, remove true exVal 0 item exSt = some s2 →
       s2.ps item 0 = none)) :=
  ⟨by decide, by decide, claim_C9 true exVal 0 1 exSt (by decide) (by decide)⟩

/-- Claim C10: `replace` returns the old root with its position for this
heap's identity already cleared to absent — the same clear-on-removal
treatment `pop` and `remove` give, so the returned entry is safe to
reinsert. -/
theorem claim_C10 (m : Bool) (val : Nat → Int) (hid item : Nat) (s : St)
    (hne : s.heap ≠ []) (hn : s.heap.Nodup) (hni : item ∉ s.heap)
    (hps : posConsistent hid s) :
    ∀ r s2, replace m val hid item s = some (r, s2) →
      r = s.heap.getD 0 0 ∧ s2.ps r hid = none := by
  intro r s2 h
  obtain ⟨-, hr, hs2⟩ := replace_some m val hid item s r s2 h
  have hr0 : r = s.heap.getD 0 0 := by
    rw [hr, (replaceCore_proj m val hid item s).1]
    rfl
  refine ⟨hr0, ?_⟩
  rw [hs2, hr0]
  exact (replaceCore_posC m val hid item s hne hn hni hps).2

theorem claim_C10_witness :
    exSt.heap ≠ [] ∧ exSt.heap.Nodup ∧ (7 : Nat) ∉ exSt.heap ∧
    posConsistent 0 exSt ∧
    (∀ r s2, replace true exVal 0 7 exSt = some (r, s2) →
      r = exSt.heap.getD 0 0 ∧ s2.ps r 0 = none) :=
  ⟨by decide, by decide, by decide, by decide,
   claim_C10 true exVal 0 7 exSt (by decide) (by decide) (by decide)
     (by decide)⟩

end XHeap
